import Mathlib

/-!
Verification model of the `tree_sitter` Ruby extension (Rust sources under
`ext/tree_sitter/src/`).  The extension is a lifetime-safe access layer over
the external tree-sitter parsing engine: the engine itself (trees, byte-range
search, parsing, query compilation and matching) is not part of the repository,
so it is modelled here — trees as rose trees of spans, engine node views as
paths into a tree, and the parse/query entry points as explicit function
parameters.  The wrapper code (node.rs, tree.rs, parser.rs, language.rs,
query.rs, range.rs, point.rs) is translated definition by definition.

Recursive functions over the rose tree take an explicit fuel argument bounded
below by the node count of the tree, which keeps them structurally recursive and
hence evaluable by `decide`; lemmas carry a `t.size ≤ fuel` hypothesis and
the public entry points instantiate the fuel with `t.size`.
-/

namespace TreeSitter

/-- point.rs: `Point { row, column }`. -/
structure Point where
  row : Nat
  column : Nat
deriving DecidableEq, Repr

/-- point.rs: `Point::to_a` pushes row then column. -/
def Point.toA (p : Point) : List Nat := [p.row, p.column]

/-- point.rs: `Point::eq` compares row and column. -/
def Point.eqP (p q : Point) : Bool := p.row == q.row && p.column == q.column

/-- Modelled from the spec: the scalar data the engine exposes on one syntax
node (tree-sitter `Node` accessors); `fieldName` is the field name of the
edge from the parent, used by `child_by_field_name`. -/
structure NodeData where
  startByte : Nat
  endByte : Nat
  kind : String
  kindId : Nat
  isNamed : Bool
  isMissing : Bool
  isExtra : Bool
  isError : Bool
  hasError : Bool
  hasChanges : Bool
  startPoint : Point
  endPoint : Point
  fieldName : Option String
deriving DecidableEq, Repr

/-- Modelled from the spec: the engine's parse result as a hierarchy of typed
spans (a rose tree). -/
inductive RawTree : Type where
  | node : NodeData → List RawTree → RawTree

def RawTree.data : RawTree → NodeData
  | .node d _ => d

def RawTree.children : RawTree → List RawTree
  | .node _ cs => cs

mutual

/-- Executable node count of a tree, used to bound the fuel of the recursions
below. -/
def RawTree.size : RawTree → Nat
  | .node _ cs => RawTree.sizeList cs + 1

def RawTree.sizeList : List RawTree → Nat
  | [] => 0
  | c :: rest => RawTree.size c + RawTree.sizeList rest

end

/-- Modelled from the spec: an engine node view is a path of child indices
from the root, paired with the subtree it designates. -/
abbrev TSView := List Nat × RawTree

/-- Subtree lookup along a path of child indices. -/
def getAt : RawTree → List Nat → Option RawTree
  | t, [] => some t
  | t, i :: p =>
    match t.children.get? i with
    | some c => getAt c p
    | none => none

/-- Modelled from the spec: a node fully covers `[s, e)` when its span
contains it. -/
def covers (u : RawTree) (s e : Nat) : Bool :=
  u.data.startByte ≤ s && e ≤ u.data.endByte

/-- First child (with its index) fully covering `[s, e)`. -/
def findCover (s e : Nat) : List RawTree → Option (Nat × RawTree)
  | [] => none
  | c :: rest =>
    if covers c s e then some (0, c)
    else (findCover s e rest).map (fun x => (x.1 + 1, x.2))

/-- Modelled from the spec: descend from a covering node to the smallest
(deepest) descendant fully covering `[s, e)`, returning its path and subtree.
The fuel bounds the recursion depth; `t.size` always suffices. -/
def descendFuel : Nat → RawTree → Nat → Nat → List Nat × RawTree
  | 0, t, _, _ => ([], t)
  | fuel + 1, t, s, e =>
    match findCover s e t.children with
    | some ic =>
      let r := descendFuel fuel ic.2 s e
      (ic.1 :: r.1, r.2)
    | none => ([], t)

/-- Modelled from the spec: tree-sitter `Node::descendant_for_byte_range`
called on the root — the byte-range search that relocation performs; absence
when the root does not cover the range. -/
def descendantForByteRange (t : RawTree) (s e : Nat) : Option TSView :=
  if covers t s e then some (descendFuel t.size t s e) else none

/-- Every node's span is within bounds: `startByte ≤ endByte ≤ len`
(the §3 invariant that source text and parse result correspond). -/
def spansOkFuel : Nat → Nat → RawTree → Bool
  | 0, _, _ => false
  | fuel + 1, len, t =>
    (t.data.startByte ≤ t.data.endByte && t.data.endByte ≤ len)
      && t.children.all (fun c => spansOkFuel fuel len c)

def spansOk (len : Nat) (t : RawTree) : Bool := spansOkFuel t.size len t

/-- Consecutive siblings occupy ordered, non-overlapping spans. -/
def siblingsOrdered : List RawTree → Bool
  | [] => true
  | [_] => true
  | a :: b :: rest =>
    (a.data.endByte ≤ b.data.startByte) && siblingsOrdered (b :: rest)

/-- Modelled from the spec: well-formedness of engine trees — each node's
span is ordered, children lie within their parent's span in sibling order. -/
def treeOkFuel : Nat → RawTree → Bool
  | 0, _ => false
  | fuel + 1, t =>
    (t.data.startByte ≤ t.data.endByte)
      && siblingsOrdered t.children
      && t.children.all (fun c =>
        t.data.startByte ≤ c.data.startByte && c.data.endByte ≤ t.data.endByte
          && treeOkFuel fuel c)

def treeOk (t : RawTree) : Bool := treeOkFuel t.size t

/-- Modelled from the spec: the engine's s-expression dump of a subtree. -/
def sexpFuel : Nat → RawTree → String
  | 0, _ => ""
  | fuel + 1, t =>
    "(" ++ t.data.kind
      ++ String.join (t.children.map (fun c => " " ++ sexpFuel fuel c)) ++ ")"

def sexpOf (t : RawTree) : String := sexpFuel t.size t

/-! Engine-side navigation on borrow-scoped views.  Each operation below is
modelled from the spec (§4.3's list of navigation targets): the engine methods
`tree_sitter::Node::{parent, child, named_child, child_by_field_name,
next_sibling, prev_sibling, next_named_sibling, prev_named_sibling, children,
named_children}` are not part of this repository's sources. -/

/-- The view designated by a path, when the path is valid. -/
def tsView (t : RawTree) (p : List Nat) : Option TSView :=
  (getAt t p).map (fun u => (p, u))

/-- Modelled from the spec: the engine parent — one step up the path; the root
has none. -/
def tsParent (t : RawTree) (v : TSView) : Option TSView :=
  if v.1 = [] then none else tsView t v.1.dropLast

/-- Modelled from the spec: the engine child at `i` among all children. -/
def tsChild (v : TSView) (i : Nat) : Option TSView :=
  (v.2.children.get? i).map (fun c => (v.1 ++ [i], c))

/-- Position (index among all children) and subtree of the `i`-th named
child. -/
def nthNamed : Nat → List RawTree → Option (Nat × RawTree)
  | _, [] => none
  | i, c :: rest =>
    if c.data.isNamed then
      match i with
      | 0 => some (0, c)
      | i' + 1 => (nthNamed i' rest).map (fun x => (x.1 + 1, x.2))
    else (nthNamed i rest).map (fun x => (x.1 + 1, x.2))

/-- Modelled from the spec: the engine named child at `i` (counting named
children only). -/
def tsNamedChild (v : TSView) (i : Nat) : Option TSView :=
  (nthNamed i v.2.children).map (fun jc => (v.1 ++ [jc.1], jc.2))

/-- First child (with its index) carrying the given field name. -/
def findField (name : String) : List RawTree → Option (Nat × RawTree)
  | [] => none
  | c :: rest =>
    if c.data.fieldName = some name then some (0, c)
    else (findField name rest).map (fun x => (x.1 + 1, x.2))

/-- Modelled from the spec: the engine child addressed by field name. -/
def tsChildByFieldName (v : TSView) (name : String) : Option TSView :=
  (findField name v.2.children).map (fun jc => (v.1 ++ [jc.1], jc.2))

/-- First element (with its index) satisfying a predicate. -/
def findIdxElem (p : RawTree → Bool) : List RawTree → Option (Nat × RawTree)
  | [] => none
  | c :: rest =>
    if p c then some (0, c)
    else (findIdxElem p rest).map (fun x => (x.1 + 1, x.2))

/-- Last element (with its index) satisfying a predicate. -/
def findIdxElemLast (p : RawTree → Bool) : List RawTree → Option (Nat × RawTree)
  | [] => none
  | c :: rest =>
    match findIdxElemLast p rest with
    | some x => some (x.1 + 1, x.2)
    | none => if p c then some (0, c) else none

/-- Modelled from the spec: the engine next sibling — same parent, next child
index. -/
def tsNextSibling (t : RawTree) (v : TSView) : Option TSView :=
  match v.1.getLast? with
  | none => none
  | some i =>
    let q := v.1.dropLast
    (getAt t q).bind fun pv =>
      (pv.children.get? (i + 1)).map (fun c => (q ++ [i + 1], c))

/-- Modelled from the spec: the engine previous sibling. -/
def tsPrevSibling (t : RawTree) (v : TSView) : Option TSView :=
  match v.1.getLast? with
  | none => none
  | some i =>
    let q := v.1.dropLast
    match i with
    | 0 => none
    | i' + 1 =>
      (getAt t q).bind fun pv =>
        (pv.children.get? i').map (fun c => (q ++ [i'], c))

/-- Modelled from the spec: the engine next named sibling — the first named
child of the parent after this one. -/
def tsNextNamedSibling (t : RawTree) (v : TSView) : Option TSView :=
  match v.1.getLast? with
  | none => none
  | some i =>
    let q := v.1.dropLast
    (getAt t q).bind fun pv =>
      (findIdxElem (fun c => c.data.isNamed) (pv.children.drop (i + 1))).map
        (fun jc => (q ++ [i + 1 + jc.1], jc.2))

/-- Modelled from the spec: the engine previous named sibling — the last named
child of the parent before this one. -/
def tsPrevNamedSibling (t : RawTree) (v : TSView) : Option TSView :=
  match v.1.getLast? with
  | none => none
  | some i =>
    let q := v.1.dropLast
    (getAt t q).bind fun pv =>
      (findIdxElemLast (fun c => c.data.isNamed) (pv.children.take i)).map
        (fun jc => (q ++ [jc.1], jc.2))

/-- Modelled from the spec: the engine children iterator, eagerly listed. -/
def tsChildrenOf (v : TSView) : List RawTree := v.2.children

/-- Modelled from the spec: the engine named-children iterator. -/
def tsNamedChildrenOf (v : TSView) : List RawTree :=
  v.2.children.filter (fun c => c.data.isNamed)

/-- range.rs: `Range`. -/
structure Range where
  start_byte : Nat
  end_byte : Nat
  start_point : Point
  end_point : Point
deriving DecidableEq, Repr

/-- range.rs: `Range::new`. -/
def Range.new (start_byte end_byte : Nat) (start_point end_point : Point) :
    Range :=
  { start_byte, end_byte, start_point, end_point }

/-- range.rs: `Range::size` is `end_byte - start_byte` (usize subtraction;
Lean's truncated subtraction matches release-mode wrapping only when
`start_byte ≤ end_byte`). -/
def Range.size (r : Range) : Nat := r.end_byte - r.start_byte

/-- The subtraction in `Range::size` as the partial operation it is in the
source: a usize underflow is a panic, modelled as `none`. -/
def Range.size_checked (r : Range) : Option Nat :=
  if r.start_byte ≤ r.end_byte then some (r.end_byte - r.start_byte) else none

/-- node.rs: `Node` — the durable wrapper handle.  `tree` models the
`Arc<tree_sitter::Tree>` (the engine tree is its root node), `source` the
independently-owned copy of the source text as bytes; every other field is
the snapshot taken at construction. -/
structure Node where
  tree : RawTree
  source : List Nat
  start_byte : Nat
  end_byte : Nat
  kind : String
  kind_id : Nat
  is_named : Bool
  is_missing : Bool
  is_extra : Bool
  is_error : Bool
  has_error : Bool
  has_changes : Bool
  start_point : Point
  end_point : Point
  child_count : Nat
  named_child_count : Nat
  sexp : String

/-- node.rs: `Node::new` snapshots every scalar property of the engine node
`v`. -/
def Node.new (v : RawTree) (source : List Nat) (tree : RawTree) : Node :=
  { tree := tree
    source := source
    start_byte := v.data.startByte
    end_byte := v.data.endByte
    kind := v.data.kind
    kind_id := v.data.kindId
    is_named := v.data.isNamed
    is_missing := v.data.isMissing
    is_extra := v.data.isExtra
    is_error := v.data.isError
    has_error := v.data.hasError
    has_changes := v.data.hasChanges
    start_point := v.data.startPoint
    end_point := v.data.endPoint
    child_count := v.children.length
    named_child_count := (v.children.filter (fun c => c.data.isNamed)).length
    sexp := sexpOf v }

/-- node.rs: `Node::get_ts_node` — relocate the engine node from the stored
tree by byte range. -/
def Node.get_ts_node (n : Node) : Option TSView :=
  descendantForByteRange n.tree n.start_byte n.end_byte

/-- node.rs: `Node::get_ts_node_pub` — the same relocation, exposed for
query.rs. -/
def Node.get_ts_node_pub (n : Node) : Option TSView :=
  descendantForByteRange n.tree n.start_byte n.end_byte

/-- node.rs: `Node::parent`. -/
def Node.parent (n : Node) : Option Node :=
  (n.get_ts_node).bind fun v =>
    (tsParent n.tree v).map (fun w => Node.new w.2 n.source n.tree)

/-- node.rs: `Node::child`. -/
def Node.child (n : Node) (index : Nat) : Option Node :=
  (n.get_ts_node).bind fun v =>
    (tsChild v index).map (fun w => Node.new w.2 n.source n.tree)

/-- node.rs: `Node::named_child`. -/
def Node.named_child (n : Node) (index : Nat) : Option Node :=
  (n.get_ts_node).bind fun v =>
    (tsNamedChild v index).map (fun w => Node.new w.2 n.source n.tree)

/-- node.rs: `Node::child_by_field_name`. -/
def Node.child_by_field_name (n : Node) (name : String) : Option Node :=
  (n.get_ts_node).bind fun v =>
    (tsChildByFieldName v name).map (fun w => Node.new w.2 n.source n.tree)

/-- node.rs: `Node::children` — empty array when relocation fails, else one
wrapper per engine child. -/
def Node.children (n : Node) : List Node :=
  match n.get_ts_node with
  | none => []
  | some v => (tsChildrenOf v).map (fun c => Node.new c n.source n.tree)

/-- node.rs: `Node::named_children`. -/
def Node.named_children (n : Node) : List Node :=
  match n.get_ts_node with
  | none => []
  | some v => (tsNamedChildrenOf v).map (fun c => Node.new c n.source n.tree)

/-- node.rs: `Node::next_sibling`. -/
def Node.next_sibling (n : Node) : Option Node :=
  (n.get_ts_node).bind fun v =>
    (tsNextSibling n.tree v).map (fun w => Node.new w.2 n.source n.tree)

/-- node.rs: `Node::prev_sibling`. -/
def Node.prev_sibling (n : Node) : Option Node :=
  (n.get_ts_node).bind fun v =>
    (tsPrevSibling n.tree v).map (fun w => Node.new w.2 n.source n.tree)

/-- node.rs: `Node::next_named_sibling`. -/
def Node.next_named_sibling (n : Node) : Option Node :=
  (n.get_ts_node).bind fun v =>
    (tsNextNamedSibling n.tree v).map (fun w => Node.new w.2 n.source n.tree)

/-- node.rs: `Node::prev_named_sibling`. -/
def Node.prev_named_sibling (n : Node) : Option Node :=
  (n.get_ts_node).bind fun v =>
    (tsPrevNamedSibling n.tree v).map (fun w => Node.new w.2 n.source n.tree)

/-- node.rs: `Node::range`. -/
def Node.range (n : Node) : Range :=
  Range.new n.start_byte n.end_byte n.start_point n.end_point

/-- The Rust byte slice `&src[s..e]`: defined exactly when `s ≤ e ≤ len`
(anything else is a panic, modelled as `none`). -/
def sliceBytes (src : List Nat) (s e : Nat) : Option (List Nat) :=
  if s ≤ e ∧ e ≤ src.length then some ((src.drop s).take (e - s)) else none

/-- node.rs: `Node::text` — slice the node's own copy of the source by its
byte range; empty string when the recorded end lies past the source. -/
def Node.text (n : Node) : Option (List Nat) :=
  if n.end_byte ≤ n.source.length then
    sliceBytes n.source n.start_byte n.end_byte
  else some []

/-- node.rs: `Node::to_sexp` returns the snapshot. -/
def Node.to_sexp (n : Node) : String := n.sexp

/-- node.rs: `Node::inspect`. -/
def Node.inspect (n : Node) : String :=
  "#<TreeSitter::Node kind=" ++ n.kind ++ " start_byte="
    ++ toString n.start_byte ++ " end_byte=" ++ toString n.end_byte ++ ">"

/-- node.rs: `Node::eq` — structural `(start_byte, end_byte, kind)`
equality. -/
def Node.eq (n other : Node) : Bool :=
  n.start_byte == other.start_byte && n.end_byte == other.end_byte
    && n.kind == other.kind

/-- tree.rs: `Tree` — parse result, exact source text and language name. -/
structure Tree where
  inner : RawTree
  source : List Nat
  language_name : String

/-- tree.rs: `Tree::new`. -/
def Tree.new (tree : RawTree) (source : List Nat) (language_name : String) :
    Tree :=
  { inner := tree, source := source, language_name := language_name }

/-- tree.rs: `Tree::root_node` — a durable wrapper for the engine root. -/
def Tree.root_node (t : Tree) : Node := Node.new t.inner t.source t.inner

/-- The Ruby exceptions the extension raises, by the exception class used
(`RuntimeError`, `ArgumentError`, `SyntaxError`) with the formatted message.
The spec's taxonomy maps onto these: `NotFoundError` is the `argError` of
`get_language`, `NoLanguageError` the `runtimeError` of `parse`, and so on. -/
inductive RErr where
  | runtimeError (msg : String)
  | argError (msg : String)
  | syntaxError (msg : String)
deriving DecidableEq, Repr

/-- Modelled from the spec: an engine grammar handle (`tree_sitter::Language`)
— immutable, identified here by an id, carrying its ABI version and node-kind
count. -/
structure TSLanguage where
  langId : Nat
  abiVersion : Nat
  nodeKindCount : Nat
deriving DecidableEq, Repr

/-- Modelled from the spec: a loaded shared library kept resident
(`libloading::Library`). -/
structure Library where
  libId : Nat
deriving DecidableEq, Repr

/-- language.rs: `LoadedLanguage` — grammar handle plus the module keep-alive
guard. -/
structure LoadedLanguage where
  language : TSLanguage
  library : Library
deriving DecidableEq, Repr

/-- language.rs: the process-wide `LANGUAGES` registry, a name-keyed
associative store (`HashMap<String, LoadedLanguage>`), modelled as an
association list with unique keys maintained by `insertReg`.  The
reader/writer lock around it is a concurrency artifact outside this
sequential model. -/
abbrev Registry := List (String × LoadedLanguage)

/-- `HashMap::get` on the registry. -/
def lookupReg : Registry → String → Option LoadedLanguage
  | [], _ => none
  | e :: rest, name => if e.1 = name then some e.2 else lookupReg rest name

/-- `HashMap::insert` on the registry: binds `name`, replacing any prior
binding (last-write-wins). -/
def insertReg (reg : Registry) (name : String) (v : LoadedLanguage) :
    Registry :=
  (name, v) :: reg.filter (fun e => !(e.1 == name))

/-- language.rs: the `Language` wrapper — symbolic name plus the grammar
handle. -/
structure Language where
  name : String
  inner : TSLanguage
deriving DecidableEq, Repr

/-- language.rs: `Language::version`. -/
def Language.version (l : Language) : Nat := l.inner.abiVersion

/-- language.rs: `Language::node_kind_count`. -/
def Language.node_kind_count (l : Language) : Nat := l.inner.nodeKindCount

/-- language.rs: `register_language` — load the module at `library_path`
(RuntimeError on failure), resolve the `tree_sitter_{name}` symbol
(RuntimeError if absent) and store the grammar under `name`.  The dynamic
loader and symbol resolution are the host system's, passed in as functions. -/
def register_language (loadLibrary : String → Option Library)
    (getSymbol : Library → String → Option TSLanguage)
    (reg : Registry) (name library_path : String) : Except RErr Registry :=
  match loadLibrary library_path with
  | none =>
    .error (.runtimeError ("Failed to load library '" ++ library_path ++ "'"))
  | some library =>
    match getSymbol library ("tree_sitter_" ++ name) with
    | none =>
      .error (.runtimeError ("Failed to find symbol 'tree_sitter_" ++ name
        ++ "' in '" ++ library_path ++ "'"))
    | some language =>
      .ok (insertReg reg name { language := language, library := library })

/-- language.rs: the `NotFoundError` message, with its guidance to register
first. -/
def notRegisteredMsg (name : String) : String :=
  "Language '" ++ name
    ++ "' not registered. Call TreeSitter.register_language first."

/-- language.rs: `get_language` — the registry lookup returning a wrapped
handle; ArgumentError (the spec's `NotFoundError`) when absent. -/
def get_language (reg : Registry) (name : String) : Except RErr Language :=
  match lookupReg reg name with
  | none => .error (.argError (notRegisteredMsg name))
  | some loaded => .ok { name := name, inner := loaded.language }

/-- language.rs: `list_languages` — the registered names. -/
def list_languages (reg : Registry) : List String := reg.map Prod.fst

/-- language.rs: `get_language_internal` — same lookup, raw handle. -/
def get_language_internal (reg : Registry) (name : String) :
    Except RErr TSLanguage :=
  match lookupReg reg name with
  | none => .error (.argError (notRegisteredMsg name))
  | some loaded => .ok loaded.language

/-- tree.rs: `Tree::language` — re-resolve the recorded name through the
registry at call time. -/
def Tree.language (reg : Registry) (t : Tree) : Except RErr Language :=
  match get_language_internal reg t.language_name with
  | .error e => .error e
  | .ok ts_lang => .ok { name := t.language_name, inner := ts_lang }

/-- parser.rs: `Parser` state — the committed language name and the
cancellation budget; the engine's internal parser state lives behind the
engine functions. -/
structure Parser where
  language_name : Option String
  timeout_micros : Nat

/-- parser.rs: `Parser::new`. -/
def Parser.new : Parser := { language_name := none, timeout_micros := 0 }

/-- parser.rs: `Parser::set_language` — resolve through the registry, commit
the grammar and record the name. -/
def Parser.set_language (reg : Registry) (p : Parser) (name : String) :
    Except RErr Parser :=
  match get_language_internal reg name with
  | .error e => .error e
  | .ok _ => .ok { p with language_name := some name }

/-- parser.rs: `Parser::language` — re-resolve the committed name on every
call. -/
def Parser.language (reg : Registry) (p : Parser) :
    Except RErr (Option Language) :=
  match p.language_name with
  | some n =>
    match get_language_internal reg n with
    | .error e => .error e
    | .ok ts_lang => .ok (some { name := n, inner := ts_lang })
  | none => .ok none

/-- parser.rs: `Parser::set_timeout_micros`. -/
def Parser.set_timeout_micros (p : Parser) (timeout : Nat) : Parser :=
  { p with timeout_micros := timeout }

/-- parser.rs: the progress callback built for a timed parse: continue
(`true`) while the microseconds elapsed since the parse began stay strictly
below the budget, stop (`false`) once it is reached. -/
def progressCheck (timeout elapsed : Nat) : Bool := elapsed < timeout

/-- parser.rs: the byte-offset-driven source callback: the suffix of the
source from `offset`, empty once past the end. -/
def sourceCallback (source_bytes : List Nat) (offset : Nat) : List Nat :=
  if offset < source_bytes.length then source_bytes.drop offset else []

/-- Modelled from the spec: the engine's two parse entry points, absent from
src/ — `parse` takes the full in-memory text, `parseWithOptions` a windowed
source callback and a periodic progress callback (continue on `true`); both
take the optional previous tree and may produce no tree. -/
structure ParseEngine where
  parse : List Nat → Option RawTree → Option RawTree
  parseWithOptions :
    (Nat → List Nat) → (Nat → Bool) → Option RawTree → Option RawTree

/-- parser.rs: `Parser::parse` — requires a committed language (RuntimeError,
the spec's `NoLanguageError`, otherwise), then a direct parse when the budget
is 0 and a timed parse with the progress callback when it is positive; an
engine miss (cancelled parse) is `ok none`, never an error. -/
def Parser.parse (eng : ParseEngine) (p : Parser) (source : List Nat)
    (old_tree : Option Tree) : Except RErr (Option Tree) :=
  match p.language_name with
  | none =>
    .error (.runtimeError
      "No language set. Call `parser.language = 'name'` first.")
  | some language_name =>
    let old_ts_tree := old_tree.map (fun t => t.inner)
    let result :=
      if p.timeout_micros > 0 then
        eng.parseWithOptions (sourceCallback source)
          (progressCheck p.timeout_micros) old_ts_tree
      else
        eng.parse source old_ts_tree
    match result with
    | some tree => .ok (some (Tree.new tree source language_name))
    | none => .ok none

/-- Modelled from the spec: a compiled engine query (`tree_sitter::Query`) —
its ordered capture-name table and pattern count. -/
structure RawQuery where
  captureNames : List String
  patternCount : Nat
deriving DecidableEq, Repr

/-- query.rs: the `Query` wrapper — the compiled engine query plus its own
copy of the capture-name table, fixed at compile time. -/
structure Query where
  inner : RawQuery
  capture_names : List String
deriving DecidableEq, Repr

/-- query.rs: `Query::new` — compile the pattern text against the grammar;
SyntaxError carrying the engine diagnostic on a malformed pattern, else copy
out the capture names.  The engine compiler is passed in as a function. -/
def Query.new (engineQueryNew : TSLanguage → String → Except String RawQuery)
    (language : Language) (source : String) : Except RErr Query :=
  match engineQueryNew language.inner source with
  | .error e => .error (.syntaxError ("Query syntax error: " ++ e))
  | .ok query => .ok { inner := query, capture_names := query.captureNames }

/-- query.rs: `Query::pattern_count`. -/
def Query.pattern_count (q : Query) : Nat := q.inner.patternCount

/-- Modelled from the spec: one engine capture — a numeric capture index and
the captured engine node. -/
structure RawCapture where
  index : Nat
  node : RawTree

/-- Modelled from the spec: one engine match — pattern index and captures. -/
structure RawMatch where
  pattern_index : Nat
  captures : List RawCapture

/-- query.rs: `QueryCapture` — a resolved capture name and a fresh durable
node. -/
structure QueryCapture where
  name : String
  node : Node

/-- query.rs: `QueryMatch` — pattern index and owned captures. -/
structure QueryMatch where
  pattern_index : Nat
  captures : List QueryCapture

/-- query.rs: `QueryCursor::matches` — relocate the start node (empty array
on a miss), then drain the engine's match stream eagerly, resolving each
engine capture index against the query's capture-name table (that Rust
indexing is a panic when out of range, modelled as `none`).  The engine's
streaming matcher, with the cursor's internal state, is passed in as a
function. -/
def QueryCursor.matches
    (engineMatches : RawQuery → TSView → List Nat → List RawMatch)
    (query : Query) (node : Node) (source : List Nat) :
    Option (List QueryMatch) :=
  match node.get_ts_node_pub with
  | none => some []
  | some ts_node =>
    (engineMatches query.inner ts_node source).mapM fun m =>
      (m.captures.mapM fun c =>
        (query.capture_names.get? c.index).map fun capture_name =>
          ({ name := capture_name,
             node := Node.new c.node node.source node.tree } : QueryCapture)).map
        fun captures =>
          ({ pattern_index := m.pattern_index, captures } : QueryMatch)

/-- query.rs: `QueryCursor::captures` — same relocation and draining
discipline, capture by capture; the stream yields (match, capture position)
pairs, a missing position is skipped by the `if let`, and resolving the
capture index is the same partial table lookup. -/
def QueryCursor.captures
    (engineCaptures : RawQuery → TSView → List Nat → List (RawMatch × Nat))
    (query : Query) (node : Node) (source : List Nat) :
    Option (List QueryCapture) :=
  match node.get_ts_node_pub with
  | none => some []
  | some ts_node =>
    let step : RawMatch × Nat → Option (Option QueryCapture) := fun mc =>
      match mc.1.captures.get? mc.2 with
      | none => some none
      | some c =>
        (query.capture_names.get? c.index).map fun capture_name =>
          some ({ name := capture_name,
                  node := Node.new c.node node.source node.tree } : QueryCapture)
    ((engineCaptures query.inner ts_node source).mapM step).map
      (fun l => l.filterMap id)

/-! Registry lemmas. -/

theorem lookupReg_filter_ne (reg : Registry) (k name : String)
    (h : ¬ name = k) :
    lookupReg (reg.filter (fun e => !(e.1 == k))) name = lookupReg reg name := by
  induction reg with
  | nil => rfl
  | cons e rest ih =>
    by_cases hk : e.1 = k
    · have hne : ¬ e.1 = name := by
        rw [hk]; exact fun hh => h hh.symm
      have hkn : ¬ k = name := by rw [← hk]; exact hne
      simp [List.filter_cons, hk, lookupReg, hne, hkn, ih]
    · simp [List.filter_cons, hk, lookupReg, ih]

theorem lookupReg_insert (reg : Registry) (k : String) (v : LoadedLanguage)
    (name : String) :
    lookupReg (insertReg reg k v) name =
      if name = k then some v else lookupReg reg name := by
  by_cases h : name = k
  · subst h; simp [insertReg, lookupReg]
  · have h2 : ¬ k = name := fun hh => h hh.symm
    simp [insertReg, lookupReg, h, h2, lookupReg_filter_ne reg k name h]

theorem lookup_isSome_iff_mem (reg : Registry) (name : String) :
    (lookupReg reg name).isSome ↔ name ∈ list_languages reg := by
  induction reg with
  | nil => simp [lookupReg, list_languages]
  | cons e rest ih =>
    by_cases h : e.1 = name
    · simp [lookupReg, h, list_languages]
    · have h2 : ¬ name = e.1 := fun hh => h hh.symm
      simp [lookupReg, h, h2, list_languages, ih]

/-- The registry transitions the public interface can make: `lookup` and
`list` read only; `register_language` either fails (state unchanged) or
performs one `insertReg`.  There is no removing transition. -/
def regStep (r r' : Registry) : Prop :=
  r' = r ∨ ∃ n v, r' = insertReg r n v

/-- Any interleaving of public registry operations. -/
def regReaches : Registry → Registry → Prop :=
  Relation.ReflTransGen regStep

theorem regStep_lookup_mono {r r' : Registry} (h : regStep r r')
    (name : String) (hs : (lookupReg r name).isSome) :
    (lookupReg r' name).isSome := by
  rcases h with rfl | ⟨n, v, rfl⟩
  · exact hs
  · rw [lookupReg_insert]
    by_cases hn : name = n <;> simp [hn, hs]

theorem regReaches_lookup_mono {r r' : Registry} (h : regReaches r r')
    (name : String) (hs : (lookupReg r name).isSome) :
    (lookupReg r' name).isSome := by
  induction h with
  | refl => exact hs
  | tail _ step ih => exact regStep_lookup_mono step name ih

/-! C6, C7, C10: the language registry. -/

/-- C6: `lookup(name)` returns the handle of the most recently registered
grammar under `name`, fails with the registry's NotFoundError (whose message
carries the guidance to register first) exactly when the name is absent, and
`register("x", pathA)` then `register("x", pathB)` makes `lookup("x")`
reflect pathB's grammar (last-write-wins). -/
theorem get_language_spec (reg : Registry) (name : String) :
    (lookupReg reg name = none →
      get_language reg name = .error (.argError (notRegisteredMsg name))) ∧
    (∀ loaded, lookupReg reg name = some loaded →
      get_language reg name = .ok { name := name, inner := loaded.language }) ∧
    ((∃ l, get_language reg name = .ok l) ↔ (lookupReg reg name).isSome) ∧
    (∀ load sym pathA pathB r1 r2 libB langB,
      register_language load sym reg name pathA = .ok r1 →
      register_language load sym r1 name pathB = .ok r2 →
      load pathB = some libB →
      sym libB ("tree_sitter_" ++ name) = some langB →
      get_language r2 name = .ok { name := name, inner := langB }) := by
  refine ⟨?_, ?_, ?_, ?_⟩
  · intro h
    simp [get_language, h]
  · intro loaded h
    unfold get_language
    rw [h]
  · constructor
    · rintro ⟨l, hl⟩
      cases h : lookupReg reg name with
      | none => simp [get_language, h] at hl
      | some loaded => simp
    · intro h
      rw [Option.isSome_iff_exists] at h
      obtain ⟨loaded, h⟩ := h
      exact ⟨{ name := name, inner := loaded.language },
        by unfold get_language; rw [h]⟩
  · intro load sym pathA pathB r1 r2 libB langB h1 h2 hload hsym
    rw [register_language] at h2
    simp only [hload, hsym] at h2
    cases h2
    simp [get_language, lookupReg_insert]

/-- C6 witness: a two-registration run over one name; the lookup reflects the
second grammar. -/
theorem get_language_spec_witness :
    get_language
        (insertReg (insertReg [] "x"
            { language := ⟨1, 14, 5⟩, library := ⟨1⟩ }) "x"
          { language := ⟨2, 15, 7⟩, library := ⟨2⟩ })
        "x" = .ok { name := "x", inner := ⟨2, 15, 7⟩ } ∧
      get_language ([] : Registry) "x" =
        .error (.argError (notRegisteredMsg "x")) := by
  constructor
  · exact (get_language_spec _ "x").2.2.2
      (fun path => if path = "/a.so" then some ⟨1⟩
        else if path = "/b.so" then some ⟨2⟩ else none)
      (fun lib s =>
        if s = "tree_sitter_x" then some ⟨lib.libId, 13 + lib.libId, 3 + 2 * lib.libId⟩
        else none)
      "/a.so" "/b.so" _ _ ⟨2⟩ ⟨2, 15, 7⟩
      (by rfl) (by rfl) (by rfl) (by rfl)
  · exact (get_language_spec [] "x").1 rfl

/-- C7: `Tree::language` re-resolves the recorded language name through the
registry at each call: NotFoundError when absent, the newly registered
grammar after an overwrite, and the result depends only on the recorded
name, never on the grammar that produced the tree. -/
theorem tree_language_spec (reg : Registry) (t : Tree) :
    (lookupReg reg t.language_name = none →
      Tree.language reg t =
        .error (.argError (notRegisteredMsg t.language_name))) ∧
    (∀ v, Tree.language (insertReg reg t.language_name v) t =
      .ok { name := t.language_name, inner := v.language }) ∧
    (∀ t' : Tree, t'.language_name = t.language_name →
      Tree.language reg t' = Tree.language reg t) := by
  refine ⟨fun h => by simp [Tree.language, get_language_internal, h],
    fun v => by simp [Tree.language, get_language_internal, lookupReg_insert],
    fun t' h => by simp [Tree.language, h]⟩

/-- C7 witness: a tree parsed under grammar 1 resolves to grammar 2 after the
name was overwritten, and errors on the empty registry. -/
theorem tree_language_spec_witness :
    Tree.language
        (insertReg [("rust", { language := ⟨1, 14, 5⟩, library := ⟨1⟩ })]
          "rust" { language := ⟨2, 15, 7⟩, library := ⟨2⟩ })
        (Tree.new (.node ⟨0, 0, "source_file", 0, true, false, false, false,
          false, false, ⟨0, 0⟩, ⟨0, 0⟩, none⟩ []) [] "rust") =
      .ok { name := "rust", inner := ⟨2, 15, 7⟩ } ∧
    Tree.language ([] : Registry)
        (Tree.new (.node ⟨0, 0, "source_file", 0, true, false, false, false,
          false, false, ⟨0, 0⟩, ⟨0, 0⟩, none⟩ []) [] "rust") =
      .error (.argError (notRegisteredMsg "rust")) := by
  constructor
  · have h := (tree_language_spec
        [("rust", { language := ⟨1, 14, 5⟩, library := ⟨1⟩ })]
        (Tree.new (.node ⟨0, 0, "source_file", 0, true, false, false, false,
          false, false, ⟨0, 0⟩, ⟨0, 0⟩, none⟩ []) [] "rust")).2.1
      { language := ⟨2, 15, 7⟩, library := ⟨2⟩ }
    simpa [Tree.new] using h
  · have h := (tree_language_spec ([] : Registry)
        (Tree.new (.node ⟨0, 0, "source_file", 0, true, false, false, false,
          false, false, ⟨0, 0⟩, ⟨0, 0⟩, none⟩ []) [] "rust")).1
    simpa [Tree.new] using h rfl

/-- C10: the registry's public interface has no removal: a successful
`register` is a single insert-or-overwrite, lookups stay resolvable forever
after a name is registered across any interleaving of public operations, the
by-name re-resolutions of `Tree::language` and `Parser::language` never turn
into NotFoundError, and the name list never loses a name. -/
theorem registry_no_removal :
    (∀ load sym reg n p r',
      register_language load sym reg n p = .ok r' → regStep reg r') ∧
    (∀ r r', regReaches r r' → ∀ name,
      (lookupReg r name).isSome → (lookupReg r' name).isSome) ∧
    (∀ r r' name, regReaches r r' →
      name ∈ list_languages r → name ∈ list_languages r') ∧
    (∀ r r' name, regReaches r r' → (lookupReg r name).isSome →
      ∃ l, get_language r' name = .ok l) ∧
    (∀ r r' (t : Tree), regReaches r r' →
      (lookupReg r t.language_name).isSome →
      ∃ l, Tree.language r' t = .ok l) ∧
    (∀ r r' (p : Parser) n, regReaches r r' → p.language_name = some n →
      (lookupReg r n).isSome →
      ∃ l, Parser.language r' p = .ok (some l)) := by
  have lk : ∀ r name, (lookupReg r name).isSome →
      ∃ loaded, lookupReg r name = some loaded := by
    intro r name h
    exact Option.isSome_iff_exists.mp h
  refine ⟨?_, fun r r' h name hs => regReaches_lookup_mono h name hs,
    ?_, ?_, ?_, ?_⟩
  · intro load sym reg n p r' h
    rw [register_language] at h
    cases hl : load p with
    | none =>
      simp only [hl] at h
      exact Except.noConfusion h
    | some lib =>
      simp only [hl] at h
      cases hs : sym lib ("tree_sitter_" ++ n) with
      | none =>
        simp only [hs] at h
        exact Except.noConfusion h
      | some lang =>
        simp only [hs] at h
        cases h
        exact Or.inr ⟨n, _, rfl⟩
  · intro r r' name h hm
    rw [← lookup_isSome_iff_mem] at hm ⊢
    exact regReaches_lookup_mono h name hm
  · intro r r' name h hs
    obtain ⟨loaded, hl⟩ := lk r' name (regReaches_lookup_mono h name hs)
    exact ⟨{ name := name, inner := loaded.language },
      by unfold get_language; rw [hl]⟩
  · intro r r' t h hs
    obtain ⟨loaded, hl⟩ :=
      lk r' t.language_name (regReaches_lookup_mono h t.language_name hs)
    exact ⟨{ name := t.language_name, inner := loaded.language },
      by unfold Tree.language get_language_internal; rw [hl]⟩
  · intro r r' p n h hn hs
    obtain ⟨loaded, hl⟩ := lk r' n (regReaches_lookup_mono h n hs)
    refine ⟨{ name := n, inner := loaded.language }, ?_⟩
    unfold Parser.language get_language_internal
    simp only [hn, hl]

/-- C10 witness: after registering "x" and then overwriting it, "x" still
resolves via `lookup` and stays listed. -/
theorem registry_no_removal_witness :
    (∃ l, get_language
      (insertReg (insertReg [] "x" { language := ⟨1, 14, 5⟩, library := ⟨1⟩ })
        "x" { language := ⟨2, 15, 7⟩, library := ⟨2⟩ }) "x" = .ok l) ∧
    "x" ∈ list_languages
      (insertReg (insertReg [] "x" { language := ⟨1, 14, 5⟩, library := ⟨1⟩ })
        "x" { language := ⟨2, 15, 7⟩, library := ⟨2⟩ }) := by
  have hstep : regReaches
      (insertReg [] "x" { language := ⟨1, 14, 5⟩, library := ⟨1⟩ })
      (insertReg (insertReg [] "x" { language := ⟨1, 14, 5⟩, library := ⟨1⟩ })
        "x" { language := ⟨2, 15, 7⟩, library := ⟨2⟩ }) :=
    Relation.ReflTransGen.single
      (Or.inr ⟨"x", { language := ⟨2, 15, 7⟩, library := ⟨2⟩ }, rfl⟩)
  constructor
  · exact registry_no_removal.2.2.2.1 _ _ "x" hstep (by decide)
  · exact registry_no_removal.2.2.1 _ _ "x" hstep (by decide)

/-! Span bounds of a well-corresponding tree. -/

theorem spansOk_root {len : Nat} {t : RawTree} (h : spansOk len t = true) :
    t.data.startByte ≤ t.data.endByte ∧ t.data.endByte ≤ len := by
  cases t with
  | node d cs =>
    rw [spansOk] at h
    simp only [RawTree.size, spansOkFuel, Bool.and_eq_true,
      decide_eq_true_eq] at h
    exact ⟨h.1.1, h.1.2⟩

/-! C4, C5: the parse driver. -/

/-- C4: `Parser::parse` raises the NoLanguageError exactly when no language
has been committed; `set_language` commits the name; once a language is
committed an empty-source parse that the engine answers (with a tree whose
spans lie within the empty source, §3's correspondence invariant) succeeds
and its root node has a zero-length byte range. -/
theorem parse_language_gate (eng : ParseEngine) (p : Parser)
    (source : List Nat) (old : Option Tree) :
    (p.language_name = none →
      Parser.parse eng p source old = .error (.runtimeError
        "No language set. Call `parser.language = 'name'` first.")) ∧
    (∀ n, p.language_name = some n →
      ∀ e, Parser.parse eng p source old ≠ .error e) ∧
    (∀ reg q name q', Parser.set_language reg q name = .ok q' →
      q'.language_name = some name) ∧
    (∀ n rt, p.language_name = some n → p.timeout_micros = 0 →
      eng.parse [] none = some rt → spansOk 0 rt = true →
      ∃ T, Parser.parse eng p [] none = .ok (some T) ∧
        T.root_node.start_byte = 0 ∧ T.root_node.end_byte = 0) := by
  refine ⟨?_, ?_, ?_, ?_⟩
  · intro h
    simp only [Parser.parse, h]
  · intro n hn e
    simp only [Parser.parse, hn]
    split <;> simp
  · intro reg q name q' h
    unfold Parser.set_language at h
    cases hg : get_language_internal reg name with
    | error e =>
      simp only [hg] at h
      exact Except.noConfusion h
    | ok l =>
      simp only [hg] at h
      cases h
      rfl
  · intro n rt hn ht hp hs
    refine ⟨Tree.new rt [] n, ?_, ?_, ?_⟩
    · simp only [Parser.parse, hn, ht]
      simp [hp]
    · have h1 := (spansOk_root hs).1
      have h2 := (spansOk_root hs).2
      simp only [Tree.new, Tree.root_node, Node.new]
      omega
    · have h1 := (spansOk_root hs).1
      have h2 := (spansOk_root hs).2
      simp only [Tree.new, Tree.root_node, Node.new]
      omega

/-- C4 witness: a fresh parser fails with the NoLanguageError; with a
language committed, parsing "" under the modelled engine yields a tree whose
root spans `[0, 0)`. -/
theorem parse_language_gate_witness :
    (Parser.parse
      { parse := fun src _ => some (.node ⟨0, src.length, "source_file", 0,
          true, false, false, false, false, false, ⟨0, 0⟩, ⟨0, 0⟩, none⟩ []),
        parseWithOptions := fun _ _ _ => none }
      Parser.new [] none = .error (.runtimeError
        "No language set. Call `parser.language = 'name'` first.")) ∧
    (∃ T, Parser.parse
      { parse := fun src _ => some (.node ⟨0, src.length, "source_file", 0,
          true, false, false, false, false, false, ⟨0, 0⟩, ⟨0, 0⟩, none⟩ []),
        parseWithOptions := fun _ _ _ => none }
      { language_name := some "rust", timeout_micros := 0 } [] none =
        .ok (some T) ∧
      T.root_node.start_byte = 0 ∧ T.root_node.end_byte = 0) := by
  constructor
  · exact (parse_language_gate _ Parser.new [] none).1 rfl
  · exact (parse_language_gate _
      { language_name := some "rust", timeout_micros := 0 } [] none).2.2.2
      "rust" _ rfl rfl rfl (by decide)

/-- C5: with a language committed, a zero budget runs the engine's direct
full-text parse, a positive budget runs the timed parse whose progress
callback continues exactly while the elapsed microseconds are below the
budget, and an engine stop yields `ok none` — absence, not an error. -/
theorem parse_timeout_modes (eng : ParseEngine) (p : Parser) (n : String)
    (source : List Nat) (old : Option Tree) (hn : p.language_name = some n) :
    (p.timeout_micros = 0 →
      Parser.parse eng p source old =
        match eng.parse source (old.map fun t => t.inner) with
        | some t => .ok (some (Tree.new t source n))
        | none => .ok none) ∧
    (0 < p.timeout_micros →
      Parser.parse eng p source old =
        match eng.parseWithOptions (sourceCallback source)
            (progressCheck p.timeout_micros) (old.map fun t => t.inner) with
        | some t => .ok (some (Tree.new t source n))
        | none => .ok none) ∧
    (∀ budget elapsed, progressCheck budget elapsed = true ↔
      elapsed < budget) ∧
    (0 < p.timeout_micros →
      eng.parseWithOptions (sourceCallback source)
        (progressCheck p.timeout_micros) (old.map fun t => t.inner) = none →
      Parser.parse eng p source old = .ok none) := by
  refine ⟨?_, ?_, ?_, ?_⟩
  · intro ht
    simp [Parser.parse, hn, ht]
  · intro ht
    simp only [Parser.parse, hn]
    rw [if_pos ht]
  · intro budget elapsed
    simp [progressCheck]
  · intro ht h2
    simp only [Parser.parse, hn]
    rw [if_pos ht, h2]

/-- C5 witness: a concrete engine run through both modes — the zero-budget
parser produces the direct-parse tree, the positive-budget parser is stopped
by the engine and yields `ok none`, and the progress check continues at 3 of
5 microseconds but stops at 5. -/
theorem parse_timeout_modes_witness :
    (Parser.parse
      { parse := fun src _ => some (.node ⟨0, src.length, "source_file", 0,
          true, false, false, false, false, false, ⟨0, 0⟩, ⟨0, 0⟩, none⟩ []),
        parseWithOptions := fun _ _ _ => none }
      { language_name := some "rust", timeout_micros := 0 } [1, 2] none =
      .ok (some (Tree.new (.node ⟨0, 2, "source_file", 0, true, false, false,
        false, false, false, ⟨0, 0⟩, ⟨0, 0⟩, none⟩ []) [1, 2] "rust"))) ∧
    (Parser.parse
      { parse := fun src _ => some (.node ⟨0, src.length, "source_file", 0,
          true, false, false, false, false, false, ⟨0, 0⟩, ⟨0, 0⟩, none⟩ []),
        parseWithOptions := fun _ _ _ => none }
      { language_name := some "rust", timeout_micros := 5 } [1, 2] none =
      .ok none) ∧
    progressCheck 5 3 = true ∧ progressCheck 5 5 = false := by
  refine ⟨?_, ?_, by decide, by decide⟩
  · have h := (parse_timeout_modes
      { parse := fun src _ => some (.node ⟨0, src.length, "source_file", 0,
          true, false, false, false, false, false, ⟨0, 0⟩, ⟨0, 0⟩, none⟩ []),
        parseWithOptions := fun _ _ _ => none }
      { language_name := some "rust", timeout_micros := 0 } "rust" [1, 2]
      none rfl).1 rfl
    simpa using h
  · exact (parse_timeout_modes
      { parse := fun src _ => some (.node ⟨0, src.length, "source_file", 0,
          true, false, false, false, false, false, ⟨0, 0⟩, ⟨0, 0⟩, none⟩ []),
        parseWithOptions := fun _ _ _ => none }
      { language_name := some "rust", timeout_micros := 5 } "rust" [1, 2]
      none rfl).2.2.2 (by decide) rfl

/-! C8: query compilation. -/

/-- C8: `Query::new` fails exactly when the engine rejects the pattern text,
and then with a SyntaxError carrying the engine's diagnostic; on success the
wrapper's capture-name table is exactly the engine's declaration-order list,
so it has one entry per named capture, fixed at compile time. -/
theorem query_new_spec
    (engineQueryNew : TSLanguage → String → Except String RawQuery)
    (language : Language) (source : String) :
    ((∃ e, Query.new engineQueryNew language source = .error e) ↔
      (∃ d, engineQueryNew language.inner source = .error d)) ∧
    (∀ d, engineQueryNew language.inner source = .error d →
      Query.new engineQueryNew language source =
        .error (.syntaxError ("Query syntax error: " ++ d))) ∧
    (∀ rq, engineQueryNew language.inner source = .ok rq →
      Query.new engineQueryNew language source =
        .ok { inner := rq, capture_names := rq.captureNames }) ∧
    (∀ rq q, engineQueryNew language.inner source = .ok rq →
      Query.new engineQueryNew language source = .ok q →
      q.capture_names = rq.captureNames ∧
      q.capture_names.length = rq.captureNames.length) := by
  refine ⟨?_, ?_, ?_, ?_⟩
  · constructor
    · rintro ⟨e, he⟩
      cases hq : engineQueryNew language.inner source with
      | error d => exact ⟨d, rfl⟩
      | ok rq => simp [Query.new, hq] at he
    · rintro ⟨d, hd⟩
      exact ⟨.syntaxError ("Query syntax error: " ++ d),
        by simp [Query.new, hd]⟩
  · intro d hd
    simp [Query.new, hd]
  · intro rq hq
    simp [Query.new, hq]
  · intro rq q hq hok
    simp only [Query.new, hq] at hok
    cases hok
    exact ⟨rfl, rfl⟩

/-- C8 witness: a modelled engine that rejects one pattern and compiles
another with two named captures in declaration order. -/
theorem query_new_spec_witness :
    (Query.new
      (fun _ src => if src = "(bad" then .error "Invalid syntax at offset 4"
        else .ok { captureNames := ["name", "body"], patternCount := 1 })
      { name := "rust", inner := ⟨1, 14, 5⟩ } "(bad" =
      .error (.syntaxError "Query syntax error: Invalid syntax at offset 4")) ∧
    (Query.new
      (fun _ src => if src = "(bad" then .error "Invalid syntax at offset 4"
        else .ok { captureNames := ["name", "body"], patternCount := 1 })
      { name := "rust", inner := ⟨1, 14, 5⟩ } "(function_item) @name" =
      .ok { inner := { captureNames := ["name", "body"], patternCount := 1 },
            capture_names := ["name", "body"] }) := by
  constructor
  · exact (query_new_spec _ { name := "rust", inner := ⟨1, 14, 5⟩ }
      "(bad").2.1 "Invalid syntax at offset 4" (by simp)
  · exact (query_new_spec _ { name := "rust", inner := ⟨1, 14, 5⟩ }
      "(function_item) @name").2.2.1
      { captureNames := ["name", "body"], patternCount := 1 } (by simp)

/-! C1: relocation misses are absence, never an error. -/

/-- query.rs reaches relocation through `get_ts_node_pub`, which is the same
byte-range search as `get_ts_node`. -/
theorem get_ts_node_pub_eq (n : Node) : n.get_ts_node_pub = n.get_ts_node :=
  rfl

/-- C1: when relocating a node fails, every navigation operation returns
absence, `children`/`named_children` return the empty sequence, and
`QueryCursor::matches`/`captures` starting from that node return the empty
sequence whatever the engine would stream — no relocation miss is an
error. -/
theorem relocation_miss_absence (n : Node) (h : n.get_ts_node = none) :
    n.parent = none ∧
    (∀ i, n.child i = none) ∧
    (∀ i, n.named_child i = none) ∧
    (∀ s, n.child_by_field_name s = none) ∧
    n.next_sibling = none ∧
    n.prev_sibling = none ∧
    n.next_named_sibling = none ∧
    n.prev_named_sibling = none ∧
    n.children = [] ∧
    n.named_children = [] ∧
    (∀ em (q : Query) (src : List Nat),
      QueryCursor.matches em q n src = some []) ∧
    (∀ ec (q : Query) (src : List Nat),
      QueryCursor.captures ec q n src = some []) := by
  have hp : n.get_ts_node_pub = none := by rw [get_ts_node_pub_eq, h]
  refine ⟨?_, ?_, ?_, ?_, ?_, ?_, ?_, ?_, ?_, ?_, ?_, ?_⟩
  · simp [Node.parent, h]
  · intro i; simp [Node.child, h]
  · intro i; simp [Node.named_child, h]
  · intro s; simp [Node.child_by_field_name, h]
  · simp [Node.next_sibling, h]
  · simp [Node.prev_sibling, h]
  · simp [Node.next_named_sibling, h]
  · simp [Node.prev_named_sibling, h]
  · simp [Node.children, h]
  · simp [Node.named_children, h]
  · intro em q src; simp [QueryCursor.matches, hp]
  · intro ec q src; simp [QueryCursor.captures, hp]

/-- C1 witness: a node whose recorded range `[5, 9)` lies outside its tree
(root spans `[0, 1)`), so relocation misses; every operation yields
absence or the empty sequence. -/
theorem relocation_miss_absence_witness :
    (Node.new
      (.node ⟨5, 9, "identifier", 1, true, false, false, false, false, false,
        ⟨0, 5⟩, ⟨0, 9⟩, none⟩ []) [97]
      (.node ⟨0, 1, "program", 0, true, false, false, false, false, false,
        ⟨0, 0⟩, ⟨0, 1⟩, none⟩ [])).get_ts_node = none ∧
    (Node.new
      (.node ⟨5, 9, "identifier", 1, true, false, false, false, false, false,
        ⟨0, 5⟩, ⟨0, 9⟩, none⟩ []) [97]
      (.node ⟨0, 1, "program", 0, true, false, false, false, false, false,
        ⟨0, 0⟩, ⟨0, 1⟩, none⟩ [])).parent = none ∧
    (Node.new
      (.node ⟨5, 9, "identifier", 1, true, false, false, false, false, false,
        ⟨0, 5⟩, ⟨0, 9⟩, none⟩ []) [97]
      (.node ⟨0, 1, "program", 0, true, false, false, false, false, false,
        ⟨0, 0⟩, ⟨0, 1⟩, none⟩ [])).child 0 = none ∧
    (Node.new
      (.node ⟨5, 9, "identifier", 1, true, false, false, false, false, false,
        ⟨0, 5⟩, ⟨0, 9⟩, none⟩ []) [97]
      (.node ⟨0, 1, "program", 0, true, false, false, false, false, false,
        ⟨0, 0⟩, ⟨0, 1⟩, none⟩ [])).children = [] ∧
    QueryCursor.matches (fun _ _ _ => [{ pattern_index := 0, captures := [] }])
      { inner := { captureNames := ["x"], patternCount := 1 },
        capture_names := ["x"] }
      (Node.new
        (.node ⟨5, 9, "identifier", 1, true, false, false, false, false, false,
          ⟨0, 5⟩, ⟨0, 9⟩, none⟩ []) [97]
        (.node ⟨0, 1, "program", 0, true, false, false, false, false, false,
          ⟨0, 0⟩, ⟨0, 1⟩, none⟩ [])) [97] = some [] := by
  have h : (Node.new
      (.node ⟨5, 9, "identifier", 1, true, false, false, false, false, false,
        ⟨0, 5⟩, ⟨0, 9⟩, none⟩ []) [97]
      (.node ⟨0, 1, "program", 0, true, false, false, false, false, false,
        ⟨0, 0⟩, ⟨0, 1⟩, none⟩ [])).get_ts_node = none := by rfl
  have hr := relocation_miss_absence _ h
  exact ⟨h, hr.1, hr.2.1 0, hr.2.2.2.2.2.2.2.2.2.1,
    hr.2.2.2.2.2.2.2.2.2.2.1 _ _ _⟩

/-! C9: the partial operations stay in bounds under their invariants. -/

theorem mapM_isSome {α β : Type} (f : α → Option β) :
    ∀ l : List α, (∀ a ∈ l, (f a).isSome) → (l.mapM f).isSome := by
  intro l
  induction l with
  | nil => intro _; rfl
  | cons a rest ih =>
    intro h
    rw [List.mapM_cons]
    obtain ⟨b, hb⟩ :=
      Option.isSome_iff_exists.mp (h a (List.mem_cons_self a rest))
    obtain ⟨bs, hbs⟩ := Option.isSome_iff_exists.mp
      (ih (fun x hx => h x (List.mem_cons_of_mem a hx)))
    rw [hb, hbs]
    rfl

theorem isSome_of_map {α β : Type} {o : Option α} (f : α → β)
    (h : o.isSome) : (o.map f).isSome := by
  obtain ⟨a, ha⟩ := Option.isSome_iff_exists.mp h
  rw [ha]
  rfl

/-- C9: no public operation is fatal — the capture-index resolution of
`matches`/`captures` succeeds whenever the engine only reports indices below
the capture-name count, `Range::size`'s subtraction succeeds whenever
`end_byte ≥ start_byte`, and `Node::text`'s slicing always produces a value
for nodes with ordered spans (the modelled panics never fire under the
invariants). -/
theorem no_fatal_operations :
    (∀ (em : RawQuery → TSView → List Nat → List RawMatch) (q : Query)
      (n : Node) (src : List Nat),
      (∀ rq v s m, m ∈ em rq v s → ∀ c ∈ m.captures,
        c.index < q.capture_names.length) →
      (QueryCursor.matches em q n src).isSome) ∧
    (∀ (ec : RawQuery → TSView → List Nat → List (RawMatch × Nat)) (q : Query)
      (n : Node) (src : List Nat),
      (∀ rq v s mc, mc ∈ ec rq v s → ∀ c ∈ mc.1.captures,
        c.index < q.capture_names.length) →
      (QueryCursor.captures ec q n src).isSome) ∧
    (∀ r : Range, r.start_byte ≤ r.end_byte →
      r.size_checked = some r.size) ∧
    (∀ n : Node, n.start_byte ≤ n.end_byte → (n.text).isSome) := by
  refine ⟨?_, ?_, ?_, ?_⟩
  · intro em q n src h
    unfold QueryCursor.matches
    cases hv : n.get_ts_node_pub with
    | none => rfl
    | some v =>
      apply mapM_isSome
      intro m hm
      apply isSome_of_map
      apply mapM_isSome
      intro c hc
      apply isSome_of_map
      rw [List.get?_eq_get (h _ _ _ m hm c hc)]
      rfl
  · intro ec q n src h
    unfold QueryCursor.captures
    cases hv : n.get_ts_node_pub with
    | none => rfl
    | some v =>
      apply isSome_of_map
      apply mapM_isSome
      intro mc hmc
      cases hg : mc.1.captures.get? mc.2 with
      | none => simp [hg]
      | some c =>
        simp only [hg]
        apply isSome_of_map
        have hcm : c ∈ mc.1.captures := List.get?_mem hg
        rw [List.get?_eq_get (h _ _ _ mc hmc c hcm)]
        rfl
  · intro r h
    unfold Range.size_checked Range.size
    rw [if_pos h]
  · intro n h
    unfold Node.text sliceBytes
    by_cases he : n.end_byte ≤ n.source.length
    · rw [if_pos he, if_pos ⟨h, he⟩]
      rfl
    · rw [if_neg he]
      rfl

/-- A one-node engine tree used by the C9 witness. -/
def c9Raw : RawTree :=
  .node ⟨0, 1, "program", 0, true, false, false, false, false, false,
    ⟨0, 0⟩, ⟨0, 1⟩, none⟩ []

/-- The engine match stream of the C9 witness: one match, one capture with
index 0. -/
def c9Match : RawMatch :=
  { pattern_index := 0, captures := [{ index := 0, node := c9Raw }] }

/-- The start node of the C9 witness. -/
def c9Node : Node := Node.new c9Raw [97] c9Raw

/-- The query of the C9 witness: one capture name. -/
def c9Query : Query :=
  { inner := { captureNames := ["x"], patternCount := 1 },
    capture_names := ["x"] }

/-- C9 witness: a concrete match stream with one in-bounds capture index, a
concrete range and a concrete node; every partial step produces a value. -/
theorem no_fatal_operations_witness :
    (QueryCursor.matches (fun _ _ _ => [c9Match]) c9Query c9Node [97]).isSome
        = true ∧
    Range.size_checked
      { start_byte := 2, end_byte := 5,
        start_point := ⟨0, 2⟩, end_point := ⟨0, 5⟩ } = some 3 ∧
    (c9Node.text).isSome = true := by
  refine ⟨?_, ?_, ?_⟩
  · apply no_fatal_operations.1
    intro rq v s m hm c hc
    simp only [List.mem_singleton] at hm
    subst hm
    simp only [c9Match, List.mem_singleton] at hc
    subst hc
    decide
  · exact no_fatal_operations.2.2.1 _ (by decide)
  · exact no_fatal_operations.2.2.2 _ (by decide)

/-! Lemmas about the byte-range search. -/

theorem size_pos (t : RawTree) : 0 < t.size := by
  cases t with
  | node d cs => simp [RawTree.size]

theorem size_le_sizeList {c : RawTree} :
    ∀ {cs : List RawTree}, c ∈ cs → c.size ≤ RawTree.sizeList cs := by
  intro cs h
  induction cs with
  | nil => cases h
  | cons a rest ih =>
    rcases List.mem_cons.mp h with rfl | h2
    · simp [RawTree.sizeList]
    · have := ih h2
      simp only [RawTree.sizeList]
      omega

theorem findCover_get {s e : Nat} :
    ∀ {cs : List RawTree} {i : Nat} {c : RawTree},
      findCover s e cs = some (i, c) →
      cs.get? i = some c ∧ covers c s e = true := by
  intro cs
  induction cs with
  | nil => intro i c h; cases h
  | cons a rest ih =>
    intro i c h
    rw [findCover] at h
    by_cases hc : covers a s e = true
    · rw [if_pos hc] at h
      cases h
      exact ⟨rfl, hc⟩
    · rw [if_neg hc] at h
      cases hr : findCover s e rest with
      | none => rw [hr] at h; cases h
      | some x =>
        rw [hr] at h
        cases h
        have := ih hr
        exact ⟨by simpa using this.1, this.2⟩

theorem descendFuel_congr :
    ∀ (f1 f2 : Nat) (t : RawTree) (s e : Nat), t.size ≤ f1 → t.size ≤ f2 →
      descendFuel f1 t s e = descendFuel f2 t s e := by
  intro f1
  induction f1 with
  | zero =>
    intro f2 t s e h1 _
    exact absurd h1 (by have := size_pos t; omega)
  | succ k ih =>
    intro f2 t s e h1 h2
    cases f2 with
    | zero => exact absurd h2 (by have := size_pos t; omega)
    | succ m =>
      cases t with
      | node d cs =>
        rw [descendFuel, descendFuel]
        cases hf : findCover s e (RawTree.node d cs).children with
        | none => rfl
        | some ic =>
          simp only [RawTree.children] at hf
          have hmem : ic.2 ∈ cs := List.get?_mem (findCover_get hf).1
          have hsz : ic.2.size ≤ RawTree.sizeList cs := size_le_sizeList hmem
          simp only [RawTree.size] at h1 h2
          simp only [ih m ic.2 s e (by omega) (by omega)]

theorem descend_valid :
    ∀ (fuel : Nat) (t : RawTree) (s e : Nat), t.size ≤ fuel →
      getAt t (descendFuel fuel t s e).1 = some (descendFuel fuel t s e).2 := by
  intro fuel
  induction fuel with
  | zero =>
    intro t s e h
    exact absurd h (by have := size_pos t; omega)
  | succ k ih =>
    intro t s e h
    cases t with
    | node d cs =>
      rw [descendFuel]
      cases hf : findCover s e (RawTree.node d cs).children with
      | none => rfl
      | some ic =>
        simp only [RawTree.children] at hf
        have hget := (findCover_get hf).1
        have hsz : ic.2.size ≤ k := by
          have hle := size_le_sizeList (List.get?_mem hget)
          simp only [RawTree.size] at h
          omega
        simp only [getAt, RawTree.children]
        rw [hget]
        exact ih ic.2 s e hsz

theorem getAt_append :
    ∀ (p : List Nat) (t : RawTree) (i : Nat),
      getAt t (p ++ [i]) = (getAt t p).bind (fun u => u.children.get? i) := by
  intro p
  induction p with
  | nil =>
    intro t i
    simp only [List.nil_append, getAt, Option.some_bind]
    cases h : t.children.get? i <;> rfl
  | cons j p ih =>
    intro t i
    simp only [List.cons_append, getAt]
    cases h : t.children.get? j with
    | none => rfl
    | some c => exact ih c i

theorem all_congr_mem {α : Type} {p q : α → Bool} :
    ∀ l : List α, (∀ a ∈ l, p a = q a) → l.all p = l.all q := by
  intro l
  induction l with
  | nil => intro _; rfl
  | cons a rest ih =>
    intro h
    simp only [List.all_cons, h a (List.mem_cons_self a rest),
      ih (fun x hx => h x (List.mem_cons_of_mem a hx))]

theorem spansOkFuel_congr :
    ∀ (f1 f2 len : Nat) (t : RawTree), t.size ≤ f1 → t.size ≤ f2 →
      spansOkFuel f1 len t = spansOkFuel f2 len t := by
  intro f1
  induction f1 with
  | zero =>
    intro f2 len t h1 _
    exact absurd h1 (by have := size_pos t; omega)
  | succ k ih =>
    intro f2 len t h1 h2
    cases f2 with
    | zero => exact absurd h2 (by have := size_pos t; omega)
    | succ m =>
      cases t with
      | node d cs =>
        rw [spansOkFuel, spansOkFuel]
        simp only [RawTree.size] at h1 h2
        have hall : ∀ c ∈ (RawTree.node d cs).children,
            spansOkFuel k len c = spansOkFuel m len c := by
          intro c hc
          simp only [RawTree.children] at hc
          have hsz : c.size ≤ RawTree.sizeList cs := size_le_sizeList hc
          exact ih m len c (by omega) (by omega)
        rw [all_congr_mem _ hall]

theorem spansOk_children {len : Nat} {d : NodeData} {cs : List RawTree}
    (h : spansOk len (.node d cs) = true) :
    ∀ c ∈ cs, spansOk len c = true := by
  intro c hc
  rw [spansOk, RawTree.size, spansOkFuel] at h
  simp only [Bool.and_eq_true, List.all_eq_true] at h
  have h2 := h.2 c (by simpa [RawTree.children] using hc)
  rw [spansOk]
  rw [← spansOkFuel_congr (RawTree.sizeList cs) c.size len c
    (size_le_sizeList hc) (le_refl _)]
  exact h2

theorem spansOk_getAt :
    ∀ (p : List Nat) (t u : RawTree) (len : Nat),
      spansOk len t = true → getAt t p = some u → spansOk len u = true := by
  intro p
  induction p with
  | nil =>
    intro t u len hs h
    cases h
    exact hs
  | cons i p ih =>
    intro t u len hs h
    cases t with
    | node d cs =>
      rw [getAt] at h
      cases hg : (RawTree.node d cs).children.get? i with
      | none => rw [hg] at h; cases h
      | some c =>
        rw [hg] at h
        have hmem : c ∈ cs := by
          simp only [RawTree.children] at hg
          exact List.get?_mem hg
        exact ih c u len (spansOk_children hs c hmem) h

/-! Validity of the engine views returned by navigation: each view's path
designates its subtree inside the stored tree. -/

/-- `u` is a subtree of `t` (reachable along some child path). -/
def IsSubtree (t u : RawTree) : Prop := ∃ p, getAt t p = some u

theorem nthNamed_get :
    ∀ {cs : List RawTree} {i j : Nat} {c : RawTree},
      nthNamed i cs = some (j, c) → cs.get? j = some c := by
  intro cs
  induction cs with
  | nil => intro i j c h; cases h
  | cons a rest ih =>
    intro i j c h
    simp only [nthNamed] at h
    by_cases ha : a.data.isNamed = true
    · rw [if_pos ha] at h
      cases i with
      | zero =>
        cases h
        rfl
      | succ i' =>
        cases hr : nthNamed i' rest with
        | none => simp [hr] at h
        | some x =>
          simp only [hr, Option.map_some'] at h
          cases h
          simpa using ih hr
    · rw [if_neg ha] at h
      cases hr : nthNamed i rest with
      | none => simp [hr] at h
      | some x =>
        simp only [hr, Option.map_some'] at h
        cases h
        simpa using ih hr

theorem findField_get {name : String} :
    ∀ {cs : List RawTree} {j : Nat} {c : RawTree},
      findField name cs = some (j, c) → cs.get? j = some c := by
  intro cs
  induction cs with
  | nil => intro j c h; cases h
  | cons a rest ih =>
    intro j c h
    rw [findField] at h
    by_cases ha : a.data.fieldName = some name
    · rw [if_pos ha] at h
      cases h
      rfl
    · rw [if_neg ha] at h
      cases hr : findField name rest with
      | none => rw [hr] at h; cases h
      | some x =>
        rw [hr] at h
        cases h
        simpa using ih hr

theorem findIdxElem_get {p : RawTree → Bool} :
    ∀ {cs : List RawTree} {j : Nat} {c : RawTree},
      findIdxElem p cs = some (j, c) → cs.get? j = some c := by
  intro cs
  induction cs with
  | nil => intro j c h; cases h
  | cons a rest ih =>
    intro j c h
    rw [findIdxElem] at h
    by_cases ha : p a = true
    · rw [if_pos ha] at h
      cases h
      rfl
    · rw [if_neg ha] at h
      cases hr : findIdxElem p rest with
      | none => rw [hr] at h; cases h
      | some x =>
        rw [hr] at h
        cases h
        simpa using ih hr

theorem findIdxElemLast_get {p : RawTree → Bool} :
    ∀ {cs : List RawTree} {j : Nat} {c : RawTree},
      findIdxElemLast p cs = some (j, c) → cs.get? j = some c := by
  intro cs
  induction cs with
  | nil => intro j c h; cases h
  | cons a rest ih =>
    intro j c h
    rw [findIdxElemLast] at h
    cases hr : findIdxElemLast p rest with
    | some x =>
      rw [hr] at h
      cases h
      simpa using ih hr
    | none =>
      rw [hr] at h
      by_cases ha : p a = true
      · rw [if_pos ha] at h
        cases h
        rfl
      · rw [if_neg ha] at h
        cases h

theorem dropGet {α : Type} :
    ∀ (n : Nat) (l : List α) (m : Nat), (l.drop n).get? m = l.get? (n + m) := by
  intro n
  induction n with
  | zero =>
    intro l m
    simp [List.drop]
  | succ k ih =>
    intro l m
    cases l with
    | nil => simp [List.drop]
    | cons a rest =>
      rw [List.drop_succ_cons, ih]
      have : k + 1 + m = (k + m) + 1 := by omega
      rw [this]
      rfl

theorem takeGet {α : Type} :
    ∀ (n : Nat) (l : List α) (m : Nat) (a : α),
      (l.take n).get? m = some a → l.get? m = some a := by
  intro n
  induction n with
  | zero =>
    intro l m a h
    simp [List.take] at h
  | succ k ih =>
    intro l m a h
    cases l with
    | nil => simp [List.take] at h
    | cons x rest =>
      rw [List.take_succ_cons] at h
      cases m with
      | zero => exact h
      | succ m' => exact ih rest m' a h

theorem get_ts_node_valid {n : Node} {v : TSView} (h : n.get_ts_node = some v) :
    getAt n.tree v.1 = some v.2 := by
  unfold Node.get_ts_node descendantForByteRange at h
  by_cases hc : covers n.tree n.start_byte n.end_byte = true
  · rw [if_pos hc] at h
    cases h
    exact descend_valid _ _ _ _ (le_refl _)
  · rw [if_neg hc] at h
    cases h

theorem tsParent_valid {t : RawTree} {v w : TSView} (h : tsParent t v = some w) :
    getAt t w.1 = some w.2 := by
  unfold tsParent tsView at h
  by_cases he : v.1 = []
  · rw [if_pos he] at h
    cases h
  · rw [if_neg he] at h
    cases hg : getAt t v.1.dropLast with
    | none => rw [hg] at h; cases h
    | some u =>
      rw [hg] at h
      cases h
      exact hg

theorem tsChild_valid {t : RawTree} {v w : TSView} {i : Nat}
    (hv : getAt t v.1 = some v.2) (h : tsChild v i = some w) :
    getAt t w.1 = some w.2 := by
  unfold tsChild at h
  cases hg : v.2.children.get? i with
  | none => rw [hg] at h; cases h
  | some c =>
    rw [hg] at h
    cases h
    rw [getAt_append, hv]
    exact hg

theorem tsNamedChild_valid {t : RawTree} {v w : TSView} {i : Nat}
    (hv : getAt t v.1 = some v.2) (h : tsNamedChild v i = some w) :
    getAt t w.1 = some w.2 := by
  unfold tsNamedChild at h
  cases hg : nthNamed i v.2.children with
  | none => rw [hg] at h; cases h
  | some jc =>
    rw [hg] at h
    cases h
    rw [getAt_append, hv]
    exact nthNamed_get hg

theorem tsChildByFieldName_valid {t : RawTree} {v w : TSView} {name : String}
    (hv : getAt t v.1 = some v.2) (h : tsChildByFieldName v name = some w) :
    getAt t w.1 = some w.2 := by
  unfold tsChildByFieldName at h
  cases hg : findField name v.2.children with
  | none => rw [hg] at h; cases h
  | some jc =>
    rw [hg] at h
    cases h
    rw [getAt_append, hv]
    exact findField_get hg

theorem tsNextSibling_valid {t : RawTree} {v w : TSView}
    (h : tsNextSibling t v = some w) : getAt t w.1 = some w.2 := by
  unfold tsNextSibling at h
  cases hl : v.1.getLast? with
  | none => simp [hl] at h
  | some i =>
    simp only [hl] at h
    cases hg : getAt t v.1.dropLast with
    | none => simp [hg] at h
    | some pv =>
      simp only [hg, Option.some_bind] at h
      cases hc : pv.children.get? (i + 1) with
      | none =>
        rw [hc] at h
        simp at h
      | some c =>
        simp only [hc, Option.map_some'] at h
        cases h
        rw [getAt_append, hg]
        exact hc

theorem tsPrevSibling_valid {t : RawTree} {v w : TSView}
    (h : tsPrevSibling t v = some w) : getAt t w.1 = some w.2 := by
  unfold tsPrevSibling at h
  cases hl : v.1.getLast? with
  | none => simp [hl] at h
  | some i =>
    simp only [hl] at h
    cases i with
    | zero => cases h
    | succ i' =>
      cases hg : getAt t v.1.dropLast with
      | none => simp [hg] at h
      | some pv =>
        simp only [hg, Option.some_bind] at h
        cases hc : pv.children.get? i' with
        | none =>
          rw [hc] at h
          simp at h
        | some c =>
          simp only [hc, Option.map_some'] at h
          cases h
          rw [getAt_append, hg]
          exact hc

theorem tsNextNamedSibling_valid {t : RawTree} {v w : TSView}
    (h : tsNextNamedSibling t v = some w) : getAt t w.1 = some w.2 := by
  unfold tsNextNamedSibling at h
  cases hl : v.1.getLast? with
  | none => simp [hl] at h
  | some i =>
    simp only [hl] at h
    cases hg : getAt t v.1.dropLast with
    | none => simp [hg] at h
    | some pv =>
      simp only [hg, Option.some_bind] at h
      cases hf : findIdxElem (fun c => c.data.isNamed)
          (pv.children.drop (i + 1)) with
      | none => simp [hf] at h
      | some jc =>
        simp only [hf, Option.map_some'] at h
        cases h
        rw [getAt_append, hg]
        have hj := findIdxElem_get hf
        rw [dropGet] at hj
        exact hj

theorem tsPrevNamedSibling_valid {t : RawTree} {v w : TSView}
    (h : tsPrevNamedSibling t v = some w) : getAt t w.1 = some w.2 := by
  unfold tsPrevNamedSibling at h
  cases hl : v.1.getLast? with
  | none => simp [hl] at h
  | some i =>
    simp only [hl] at h
    cases hg : getAt t v.1.dropLast with
    | none => simp [hg] at h
    | some pv =>
      simp only [hg, Option.some_bind] at h
      cases hf : findIdxElemLast (fun c => c.data.isNamed)
          (pv.children.take i) with
      | none => simp [hf] at h
      | some jc =>
        simp only [hf, Option.map_some'] at h
        cases h
        rw [getAt_append, hg]
        exact takeGet _ _ _ _ (findIdxElemLast_get hf)

/-! C3: `Node::text` slices the node's own copy of the source. -/

theorem new_tree (v : RawTree) (src : List Nat) (t : RawTree) :
    (Node.new v src t).tree = t := rfl

theorem new_source (v : RawTree) (src : List Nat) (t : RawTree) :
    (Node.new v src t).source = src := rfl

theorem new_start (v : RawTree) (src : List Nat) (t : RawTree) :
    (Node.new v src t).start_byte = v.data.startByte := rfl

theorem new_end (v : RawTree) (src : List Nat) (t : RawTree) :
    (Node.new v src t).end_byte = v.data.endByte := rfl

theorem mem_exists_get {α : Type} {a : α} :
    ∀ {l : List α}, a ∈ l → ∃ i, l.get? i = some a := by
  intro l h
  induction l with
  | nil => cases h
  | cons b rest ih =>
    rcases List.mem_cons.mp h with rfl | h2
    · exact ⟨0, rfl⟩
    · obtain ⟨i, hi⟩ := ih h2
      exact ⟨i + 1, by simpa using hi⟩

theorem shape_parent {n m : Node} (h : n.parent = some m) :
    ∃ w : TSView, getAt n.tree w.1 = some w.2 ∧
      m = Node.new w.2 n.source n.tree := by
  unfold Node.parent at h
  cases hv : n.get_ts_node with
  | none => rw [hv] at h; simp at h
  | some v =>
    simp only [hv, Option.some_bind] at h
    cases hw : tsParent n.tree v with
    | none => rw [hw] at h; simp at h
    | some w =>
      simp only [hw, Option.map_some'] at h
      cases h
      exact ⟨w, tsParent_valid hw, rfl⟩

theorem shape_child {n m : Node} {i : Nat} (h : n.child i = some m) :
    ∃ w : TSView, getAt n.tree w.1 = some w.2 ∧
      m = Node.new w.2 n.source n.tree := by
  unfold Node.child at h
  cases hv : n.get_ts_node with
  | none => rw [hv] at h; simp at h
  | some v =>
    simp only [hv, Option.some_bind] at h
    cases hw : tsChild v i with
    | none => rw [hw] at h; simp at h
    | some w =>
      simp only [hw, Option.map_some'] at h
      cases h
      exact ⟨w, tsChild_valid (get_ts_node_valid hv) hw, rfl⟩

theorem shape_named_child {n m : Node} {i : Nat}
    (h : n.named_child i = some m) :
    ∃ w : TSView, getAt n.tree w.1 = some w.2 ∧
      m = Node.new w.2 n.source n.tree := by
  unfold Node.named_child at h
  cases hv : n.get_ts_node with
  | none => rw [hv] at h; simp at h
  | some v =>
    simp only [hv, Option.some_bind] at h
    cases hw : tsNamedChild v i with
    | none => rw [hw] at h; simp at h
    | some w =>
      simp only [hw, Option.map_some'] at h
      cases h
      exact ⟨w, tsNamedChild_valid (get_ts_node_valid hv) hw, rfl⟩

theorem shape_child_by_field_name {n m : Node} {s : String}
    (h : n.child_by_field_name s = some m) :
    ∃ w : TSView, getAt n.tree w.1 = some w.2 ∧
      m = Node.new w.2 n.source n.tree := by
  unfold Node.child_by_field_name at h
  cases hv : n.get_ts_node with
  | none => rw [hv] at h; simp at h
  | some v =>
    simp only [hv, Option.some_bind] at h
    cases hw : tsChildByFieldName v s with
    | none => rw [hw] at h; simp at h
    | some w =>
      simp only [hw, Option.map_some'] at h
      cases h
      exact ⟨w, tsChildByFieldName_valid (get_ts_node_valid hv) hw, rfl⟩

theorem shape_next_sibling {n m : Node} (h : n.next_sibling = some m) :
    ∃ w : TSView, getAt n.tree w.1 = some w.2 ∧
      m = Node.new w.2 n.source n.tree := by
  unfold Node.next_sibling at h
  cases hv : n.get_ts_node with
  | none => rw [hv] at h; simp at h
  | some v =>
    simp only [hv, Option.some_bind] at h
    cases hw : tsNextSibling n.tree v with
    | none => rw [hw] at h; simp at h
    | some w =>
      simp only [hw, Option.map_some'] at h
      cases h
      exact ⟨w, tsNextSibling_valid hw, rfl⟩

theorem shape_prev_sibling {n m : Node} (h : n.prev_sibling = some m) :
    ∃ w : TSView, getAt n.tree w.1 = some w.2 ∧
      m = Node.new w.2 n.source n.tree := by
  unfold Node.prev_sibling at h
  cases hv : n.get_ts_node with
  | none => rw [hv] at h; simp at h
  | some v =>
    simp only [hv, Option.some_bind] at h
    cases hw : tsPrevSibling n.tree v with
    | none => rw [hw] at h; simp at h
    | some w =>
      simp only [hw, Option.map_some'] at h
      cases h
      exact ⟨w, tsPrevSibling_valid hw, rfl⟩

theorem shape_next_named_sibling {n m : Node}
    (h : n.next_named_sibling = some m) :
    ∃ w : TSView, getAt n.tree w.1 = some w.2 ∧
      m = Node.new w.2 n.source n.tree := by
  unfold Node.next_named_sibling at h
  cases hv : n.get_ts_node with
  | none => rw [hv] at h; simp at h
  | some v =>
    simp only [hv, Option.some_bind] at h
    cases hw : tsNextNamedSibling n.tree v with
    | none => rw [hw] at h; simp at h
    | some w =>
      simp only [hw, Option.map_some'] at h
      cases h
      exact ⟨w, tsNextNamedSibling_valid hw, rfl⟩

theorem shape_prev_named_sibling {n m : Node}
    (h : n.prev_named_sibling = some m) :
    ∃ w : TSView, getAt n.tree w.1 = some w.2 ∧
      m = Node.new w.2 n.source n.tree := by
  unfold Node.prev_named_sibling at h
  cases hv : n.get_ts_node with
  | none => rw [hv] at h; simp at h
  | some v =>
    simp only [hv, Option.some_bind] at h
    cases hw : tsPrevNamedSibling n.tree v with
    | none => rw [hw] at h; simp at h
    | some w =>
      simp only [hw, Option.map_some'] at h
      cases h
      exact ⟨w, tsPrevNamedSibling_valid hw, rfl⟩

theorem shape_children_mem {n m : Node} (h : m ∈ n.children) :
    ∃ w : TSView, getAt n.tree w.1 = some w.2 ∧
      m = Node.new w.2 n.source n.tree := by
  unfold Node.children at h
  cases hv : n.get_ts_node with
  | none => rw [hv] at h; simp at h
  | some v =>
    simp only [hv] at h
    rw [List.mem_map] at h
    obtain ⟨c, hc, rfl⟩ := h
    obtain ⟨j, hj⟩ := mem_exists_get hc
    refine ⟨(v.1 ++ [j], c), ?_, rfl⟩
    rw [getAt_append, get_ts_node_valid hv]
    exact hj

theorem shape_named_children_mem {n m : Node} (h : m ∈ n.named_children) :
    ∃ w : TSView, getAt n.tree w.1 = some w.2 ∧
      m = Node.new w.2 n.source n.tree := by
  unfold Node.named_children at h
  cases hv : n.get_ts_node with
  | none => rw [hv] at h; simp at h
  | some v =>
    simp only [hv] at h
    rw [List.mem_map] at h
    obtain ⟨c, hc, rfl⟩ := h
    have hc2 : c ∈ v.2.children := List.mem_of_mem_filter hc
    obtain ⟨j, hj⟩ := mem_exists_get hc2
    refine ⟨(v.1 ++ [j], c), ?_, rfl⟩
    rw [getAt_append, get_ts_node_valid hv]
    exact hj

/-- The wrapper nodes obtainable from a tree's root by navigation. -/
inductive Reaches (T : Tree) : Node → Prop where
  | root : Reaches T T.root_node
  | parent {n m : Node} : Reaches T n → n.parent = some m → Reaches T m
  | child {n m : Node} {i : Nat} :
      Reaches T n → n.child i = some m → Reaches T m
  | named_child {n m : Node} {i : Nat} :
      Reaches T n → n.named_child i = some m → Reaches T m
  | child_by_field_name {n m : Node} {s : String} :
      Reaches T n → n.child_by_field_name s = some m → Reaches T m
  | next_sibling {n m : Node} :
      Reaches T n → n.next_sibling = some m → Reaches T m
  | prev_sibling {n m : Node} :
      Reaches T n → n.prev_sibling = some m → Reaches T m
  | next_named_sibling {n m : Node} :
      Reaches T n → n.next_named_sibling = some m → Reaches T m
  | prev_named_sibling {n m : Node} :
      Reaches T n → n.prev_named_sibling = some m → Reaches T m
  | children_mem {n m : Node} : Reaches T n → m ∈ n.children → Reaches T m
  | named_children_mem {n m : Node} :
      Reaches T n → m ∈ n.named_children → Reaches T m

/-- Every reached node is the snapshot of a subtree of the stored tree, with
the tree's own source copy. -/
theorem reaches_shape {T : Tree} {n : Node} (h : Reaches T n) :
    ∃ u, IsSubtree T.inner u ∧ n = Node.new u T.source T.inner := by
  induction h with
  | root => exact ⟨T.inner, ⟨[], rfl⟩, rfl⟩
  | parent _ hop ih =>
    obtain ⟨u, hu, rfl⟩ := ih
    obtain ⟨w, hw, rfl⟩ := shape_parent hop
    exact ⟨w.2, ⟨w.1, hw⟩, rfl⟩
  | child _ hop ih =>
    obtain ⟨u, hu, rfl⟩ := ih
    obtain ⟨w, hw, rfl⟩ := shape_child hop
    exact ⟨w.2, ⟨w.1, hw⟩, rfl⟩
  | named_child _ hop ih =>
    obtain ⟨u, hu, rfl⟩ := ih
    obtain ⟨w, hw, rfl⟩ := shape_named_child hop
    exact ⟨w.2, ⟨w.1, hw⟩, rfl⟩
  | child_by_field_name _ hop ih =>
    obtain ⟨u, hu, rfl⟩ := ih
    obtain ⟨w, hw, rfl⟩ := shape_child_by_field_name hop
    exact ⟨w.2, ⟨w.1, hw⟩, rfl⟩
  | next_sibling _ hop ih =>
    obtain ⟨u, hu, rfl⟩ := ih
    obtain ⟨w, hw, rfl⟩ := shape_next_sibling hop
    exact ⟨w.2, ⟨w.1, hw⟩, rfl⟩
  | prev_sibling _ hop ih =>
    obtain ⟨u, hu, rfl⟩ := ih
    obtain ⟨w, hw, rfl⟩ := shape_prev_sibling hop
    exact ⟨w.2, ⟨w.1, hw⟩, rfl⟩
  | next_named_sibling _ hop ih =>
    obtain ⟨u, hu, rfl⟩ := ih
    obtain ⟨w, hw, rfl⟩ := shape_next_named_sibling hop
    exact ⟨w.2, ⟨w.1, hw⟩, rfl⟩
  | prev_named_sibling _ hop ih =>
    obtain ⟨u, hu, rfl⟩ := ih
    obtain ⟨w, hw, rfl⟩ := shape_prev_named_sibling hop
    exact ⟨w.2, ⟨w.1, hw⟩, rfl⟩
  | children_mem _ hop ih =>
    obtain ⟨u, hu, rfl⟩ := ih
    obtain ⟨w, hw, rfl⟩ := shape_children_mem hop
    exact ⟨w.2, ⟨w.1, hw⟩, rfl⟩
  | named_children_mem _ hop ih =>
    obtain ⟨u, hu, rfl⟩ := ih
    obtain ⟨w, hw, rfl⟩ := shape_named_children_mem hop
    exact ⟨w.2, ⟨w.1, hw⟩, rfl⟩

/-- C3: `Node::text` returns the slice of the node's independently-owned
source copy at `[start_byte, end_byte)` when that range is within bounds and
the empty string when the recorded end lies past the source, never an error;
and for every node navigated from a tree's root (under §3's source/parse
correspondence), `text` equals the tree source sliced at the node's byte
range. -/
theorem text_slices_source :
    (∀ n : Node, n.start_byte ≤ n.end_byte →
      (n.end_byte ≤ n.source.length →
        n.text = some ((n.source.drop n.start_byte).take
          (n.end_byte - n.start_byte))) ∧
      (n.source.length < n.end_byte → n.text = some [])) ∧
    (∀ (T : Tree) (n : Node), spansOk T.source.length T.inner = true →
      Reaches T n →
      n.text = some ((T.source.drop n.start_byte).take
        (n.end_byte - n.start_byte))) := by
  constructor
  · intro n h
    constructor
    · intro he
      unfold Node.text sliceBytes
      rw [if_pos he, if_pos ⟨h, he⟩]
    · intro he
      unfold Node.text
      rw [if_neg (by omega)]
  · intro T n hs hr
    obtain ⟨u, ⟨p, hp⟩, rfl⟩ := reaches_shape hr
    have hspan := spansOk_root (spansOk_getAt p T.inner u T.source.length hs hp)
    unfold Node.text sliceBytes
    simp only [new_start, new_end, new_source]
    rw [if_pos hspan.2, if_pos ⟨hspan.1, hspan.2⟩]

/-- The engine tree of the C3 witness: a two-byte root with a one-byte
child. -/
def c3Child : RawTree :=
  .node ⟨0, 1, "identifier", 1, true, false, false, false, false, false,
    ⟨0, 0⟩, ⟨0, 1⟩, none⟩ []

def c3Root : RawTree :=
  .node ⟨0, 2, "program", 0, true, false, false, false, false, false,
    ⟨0, 0⟩, ⟨0, 2⟩, none⟩ [c3Child]

def c3Tree : Tree := Tree.new c3Root [104, 105] "rust"

def c3Node : Node := Node.new c3Child [104, 105] c3Root

/-- C3 witness: the child node navigated from the root of a concrete tree
slices its source to the child's byte range, and a node whose recorded end
lies past its (empty) source yields the empty string. -/
theorem text_slices_source_witness :
    c3Tree.root_node.child 0 = some c3Node ∧
    c3Node.text = some [104] ∧
    (Node.new c3Child [] c3Root).text = some [] := by
  refine ⟨rfl, ?_, ?_⟩
  · have hr : Reaches c3Tree c3Node :=
      @Reaches.child c3Tree c3Tree.root_node c3Node 0 Reaches.root (by rfl)
    have h2 := text_slices_source.2 c3Tree c3Node (by decide) hr
    exact h2.trans (by rfl)
  · exact (text_slices_source.1 (Node.new c3Child [] c3Root)
      (by decide)).2 (by decide)

/-! C2: the byte-range relocation search. -/

theorem treeOkFuel_congr :
    ∀ (f1 f2 : Nat) (t : RawTree), t.size ≤ f1 → t.size ≤ f2 →
      treeOkFuel f1 t = treeOkFuel f2 t := by
  intro f1
  induction f1 with
  | zero =>
    intro f2 t h1 _
    exact absurd h1 (by have := size_pos t; omega)
  | succ k ih =>
    intro f2 t h1 h2
    cases f2 with
    | zero => exact absurd h2 (by have := size_pos t; omega)
    | succ m =>
      cases t with
      | node d cs =>
        rw [treeOkFuel, treeOkFuel]
        simp only [RawTree.size] at h1 h2
        have hall : ∀ c ∈ (RawTree.node d cs).children,
            (decide ((RawTree.node d cs).data.startByte ≤ c.data.startByte)
              && decide (c.data.endByte ≤ (RawTree.node d cs).data.endByte)
              && treeOkFuel k c)
            = (decide ((RawTree.node d cs).data.startByte ≤ c.data.startByte)
              && decide (c.data.endByte ≤ (RawTree.node d cs).data.endByte)
              && treeOkFuel m c) := by
          intro c hc
          simp only [RawTree.children] at hc
          have hsz : c.size ≤ RawTree.sizeList cs := size_le_sizeList hc
          rw [ih m c (by omega) (by omega)]
        rw [all_congr_mem _ hall]

theorem treeOk_parts {d : NodeData} {cs : List RawTree}
    (h : treeOk (.node d cs) = true) :
    d.startByte ≤ d.endByte ∧
    siblingsOrdered cs = true ∧
    ∀ c ∈ cs, d.startByte ≤ c.data.startByte ∧
      c.data.endByte ≤ d.endByte ∧ treeOk c = true := by
  rw [treeOk, RawTree.size, treeOkFuel] at h
  have hd : (RawTree.node d cs).data = d := rfl
  have hc : (RawTree.node d cs).children = cs := rfl
  rw [hd, hc] at h
  simp only [Bool.and_eq_true, decide_eq_true_eq, List.all_eq_true] at h
  refine ⟨h.1.1, h.1.2, fun c hcm => ?_⟩
  have h2 := h.2 c hcm
  simp only [Bool.and_eq_true, decide_eq_true_eq] at h2
  refine ⟨h2.1.1, h2.1.2, ?_⟩
  rw [treeOk,
    treeOkFuel_congr c.size (RawTree.sizeList cs) c (le_refl _)
      (size_le_sizeList hcm)]
  exact h2.2

theorem treeOk_span {x : RawTree} (h : treeOk x = true) :
    x.data.startByte ≤ x.data.endByte := by
  cases x with
  | node d cs => exact (treeOk_parts h).1

theorem getAt_span_sub :
    ∀ (p : List Nat) (t u : RawTree), treeOk t = true → getAt t p = some u →
      t.data.startByte ≤ u.data.startByte ∧
      u.data.endByte ≤ t.data.endByte ∧ treeOk u = true := by
  intro p
  induction p with
  | nil =>
    intro t u ht h
    cases h
    exact ⟨le_refl _, le_refl _, ht⟩
  | cons i p ih =>
    intro t u ht h
    cases t with
    | node d cs =>
      rw [getAt] at h
      cases hg : (RawTree.node d cs).children.get? i with
      | none => rw [hg] at h; cases h
      | some c =>
        rw [hg] at h
        simp only [RawTree.children] at hg
        have hc := (treeOk_parts ht).2.2 c (List.get?_mem hg)
        have hrec := ih c u hc.2.2 h
        exact ⟨le_trans hc.1 hrec.1, le_trans hrec.2.1 hc.2.1, hrec.2.2⟩

theorem siblingsOrdered_tail {a : RawTree} {rest : List RawTree}
    (h : siblingsOrdered (a :: rest) = true) :
    siblingsOrdered rest = true := by
  cases rest with
  | nil => rfl
  | cons b rest' =>
    rw [siblingsOrdered] at h
    exact (Bool.and_eq_true _ _ |>.mp h).2

theorem sib_after :
    ∀ (rest : List RawTree) (a : RawTree) (i : Nat) (c : RawTree),
      siblingsOrdered (a :: rest) = true →
      (∀ b ∈ a :: rest, b.data.startByte ≤ b.data.endByte) →
      rest.get? i = some c →
      a.data.endByte ≤ c.data.startByte := by
  intro rest
  induction rest with
  | nil => intro a i c _ _ h; cases h
  | cons r0 rest' ih =>
    intro a i c hord hse h
    rw [siblingsOrdered] at hord
    simp only [Bool.and_eq_true, decide_eq_true_eq] at hord
    cases i with
    | zero =>
      cases h
      exact hord.1
    | succ i' =>
      have hr := ih r0 i' c (by
          have := hord.2
          simpa [siblingsOrdered] using this)
        (fun b hb => hse b (List.mem_cons_of_mem a hb)) (by simpa using h)
      have h0 : r0.data.startByte ≤ r0.data.endByte := hse r0 (by simp)
      have h1 := hord.1
      omega

theorem siblings_before :
    ∀ (cs : List RawTree) (j i : Nat) (b c : RawTree),
      siblingsOrdered cs = true →
      (∀ x ∈ cs, x.data.startByte ≤ x.data.endByte) →
      j < i → cs.get? j = some b → cs.get? i = some c →
      b.data.endByte ≤ c.data.startByte := by
  intro cs
  induction cs with
  | nil => intro j i b c _ _ _ h; cases h
  | cons a rest ih =>
    intro j i b c hord hse hji hj hi
    cases j with
    | zero =>
      cases hj
      cases i with
      | zero => omega
      | succ i' => exact sib_after rest a i' c hord hse (by simpa using hi)
    | succ j' =>
      cases i with
      | zero => omega
      | succ i' =>
        exact ih j' i' b c (siblingsOrdered_tail hord)
          (fun x hx => hse x (List.mem_cons_of_mem a hx)) (by omega)
          (by simpa using hj) (by simpa using hi)

theorem findCover_eq_of_first {s e : Nat} :
    ∀ (cs : List RawTree) (i : Nat) (c : RawTree),
      cs.get? i = some c → covers c s e = true →
      (∀ j b, j < i → cs.get? j = some b → covers b s e = false) →
      findCover s e cs = some (i, c) := by
  intro cs
  induction cs with
  | nil => intro i c h _ _; cases h
  | cons a rest ih =>
    intro i c hi hc hfirst
    cases i with
    | zero =>
      cases hi
      rw [findCover, if_pos hc]
    | succ i' =>
      have ha : covers a s e = false := hfirst 0 a (Nat.succ_pos i') rfl
      rw [findCover, if_neg (by simp [ha])]
      rw [ih i' c (by simpa using hi) hc
        (fun j b hj hb => hfirst (j + 1) b (by omega) (by simpa using hb))]
      rfl

theorem descend_deepest :
    ∀ (fuel : Nat) (t : RawTree) (s e : Nat), t.size ≤ fuel →
      covers t s e = true →
      covers (descendFuel fuel t s e).2 s e = true ∧
      findCover s e (descendFuel fuel t s e).2.children = none := by
  intro fuel
  induction fuel with
  | zero =>
    intro t s e h _
    exact absurd h (by have := size_pos t; omega)
  | succ k ih =>
    intro t s e h hc
    cases t with
    | node d cs =>
      rw [descendFuel]
      cases hf : findCover s e (RawTree.node d cs).children with
      | none => exact ⟨hc, hf⟩
      | some ic =>
        simp only [RawTree.children] at hf
        have hg := findCover_get hf
        have hsz : ic.2.size ≤ k := by
          have hle := size_le_sizeList (List.get?_mem hg.1)
          simp only [RawTree.size] at h
          omega
        exact ih ic.2 s e hsz hg.2

theorem descend_reproduces :
    ∀ (p : List Nat) (t u : RawTree),
      treeOk t = true → getAt t p = some u →
      u.data.startByte < u.data.endByte →
      findCover u.data.startByte u.data.endByte u.children = none →
      descendantForByteRange t u.data.startByte u.data.endByte =
        some (p, u) := by
  intro p
  induction p with
  | nil =>
    intro t u ht h hlt hnc
    cases h
    rw [descendantForByteRange]
    have hcov : covers t t.data.startByte t.data.endByte = true := by
      simp [covers]
    rw [if_pos hcov]
    cases t with
    | node d cs =>
      rw [RawTree.size, descendFuel]
      rw [show findCover (RawTree.node d cs).data.startByte
          (RawTree.node d cs).data.endByte
          (RawTree.node d cs).children = none from hnc]
  | cons i p ih =>
    intro t u ht h hlt hnc
    cases t with
    | node d cs =>
      rw [getAt] at h
      cases hg : (RawTree.node d cs).children.get? i with
      | none => rw [hg] at h; cases h
      | some c =>
        rw [hg] at h
        simp only [RawTree.children] at hg
        have hcp := (treeOk_parts ht).2.2 c (List.get?_mem hg)
        have hsub := getAt_span_sub p c u hcp.2.2 h
        have hcovc : covers c u.data.startByte u.data.endByte = true := by
          simp only [covers, Bool.and_eq_true, decide_eq_true_eq]
          exact ⟨hsub.1, hsub.2.1⟩
        have hcovt : covers (RawTree.node d cs) u.data.startByte
            u.data.endByte = true := by
          simp only [covers, Bool.and_eq_true, decide_eq_true_eq,
            RawTree.data]
          exact ⟨le_trans hcp.1 hsub.1, le_trans hsub.2.1 hcp.2.1⟩
        have hfirst : ∀ j b, j < i → cs.get? j = some b →
            covers b u.data.startByte u.data.endByte = false := by
          intro j b hj hb
          have hbe : b.data.endByte ≤ c.data.startByte :=
            siblings_before cs j i b c (treeOk_parts ht).2.1
              (fun x hx => treeOk_span ((treeOk_parts ht).2.2 x hx).2.2)
              hj hb hg
          have hcs := hsub.1
          cases hcb : covers b u.data.startByte u.data.endByte with
          | false => rfl
          | true =>
            exfalso
            simp only [covers, Bool.and_eq_true, decide_eq_true_eq] at hcb
            omega
        have hfc := findCover_eq_of_first cs i c hg hcovc hfirst
        rw [descendantForByteRange, if_pos hcovt, RawTree.size, descendFuel]
        simp only [RawTree.children, hfc]
        have hrec := ih c u hcp.2.2 h hlt hnc
        rw [descendantForByteRange, if_pos hcovc] at hrec
        have hr : descendFuel c.size c u.data.startByte u.data.endByte
            = (p, u) := Option.some.inj hrec
        rw [descendFuel_congr (RawTree.sizeList cs) c.size c
          u.data.startByte u.data.endByte
          (size_le_sizeList (List.get?_mem hg)) (le_refl _), hr]

/-- The engine tree of the C2 counterexample: under a root spanning
`[0, 2)`, a same-span chain expression_statement → call_expression, both
covering `[0, 1)`. -/
def c2Grand : RawTree :=
  .node ⟨0, 1, "call_expression", 3, true, false, false, false, false, false,
    ⟨0, 0⟩, ⟨0, 1⟩, none⟩ []

def c2Child : RawTree :=
  .node ⟨0, 1, "expression_statement", 2, true, false, false, false, false,
    false, ⟨0, 0⟩, ⟨0, 1⟩, none⟩ [c2Grand]

def c2Root : RawTree :=
  .node ⟨0, 2, "program", 1, true, false, false, false, false, false,
    ⟨0, 0⟩, ⟨0, 2⟩, none⟩ [c2Child]

def c2Tree : Tree := Tree.new c2Root [97, 98] "rust"

def c2Node : Node := Node.new c2Child [97, 98] c2Root

/-- C2 counterexample: a node obtained from its (unchanged) tree —
the `expression_statement` child of the root — whose relocation search does
NOT reproduce the same construct: because its single child covers the same
`[0, 1)` span, the smallest covering descendant is the deeper
`call_expression`, a different construct at a different path. -/
theorem relocation_same_construct_counterexample :
    c2Tree.root_node.child 0 = some c2Node ∧
    c2Node.kind = "expression_statement" ∧
    (c2Node.get_ts_node).map (fun v => v.2.data.kind) =
      some "call_expression" ∧
    (c2Node.get_ts_node).map (fun v => v.1) = some [0, 0] ∧
    treeOk c2Root = true := by
  refine ⟨rfl, rfl, rfl, rfl, by decide⟩

/-- C2 amended: relocation is a byte-range search from the tree root that
finds the smallest (deepest) descendant fully covering the recorded span —
it succeeds exactly when the root covers the span, and its result is a node
of the tree that covers the span, none of whose children covers it.  For a
node previously obtained from an unchanged well-formed tree the search
reproduces the same construct (same path and node) provided the node's span
is nonempty and not fully covered by any of its own children; a node whose
span is shared by a descendant chain relocates to the deepest such
descendant instead (see the counterexample). -/
theorem relocation_byte_range_search :
    (∀ (t : RawTree) (s e : Nat),
      ((descendantForByteRange t s e).isSome ↔ covers t s e = true) ∧
      ∀ v, descendantForByteRange t s e = some v →
        getAt t v.1 = some v.2 ∧ covers v.2 s e = true ∧
        findCover s e v.2.children = none) ∧
    (∀ (t u : RawTree) (p : List Nat),
      treeOk t = true → getAt t p = some u →
      u.data.startByte < u.data.endByte →
      findCover u.data.startByte u.data.endByte u.children = none →
      descendantForByteRange t u.data.startByte u.data.endByte =
        some (p, u)) := by
  constructor
  · intro t s e
    constructor
    · unfold descendantForByteRange
      by_cases hc : covers t s e = true <;> simp [hc]
    · intro v hv
      unfold descendantForByteRange at hv
      by_cases hc : covers t s e = true
      · rw [if_pos hc] at hv
        cases hv
        exact ⟨descend_valid _ _ _ _ (le_refl _),
          (descend_deepest _ _ _ _ (le_refl _) hc).1,
          (descend_deepest _ _ _ _ (le_refl _) hc).2⟩
      · rw [if_neg hc] at hv
        cases hv
  · intro t u p ht h hlt hnc
    exact descend_reproduces p t u ht h hlt hnc

/-- The engine tree of the C2 witness: a root spanning `[0, 3)` with two
children at distinct spans `[0, 1)` and `[1, 3)`. -/
def c2wA : RawTree :=
  .node ⟨0, 1, "identifier", 4, true, false, false, false, false, false,
    ⟨0, 0⟩, ⟨0, 1⟩, none⟩ []

def c2wB : RawTree :=
  .node ⟨1, 3, "number_literal", 5, true, false, false, false, false, false,
    ⟨0, 1⟩, ⟨0, 3⟩, none⟩ []

def c2wRoot : RawTree :=
  .node ⟨0, 3, "program", 1, true, false, false, false, false, false,
    ⟨0, 0⟩, ⟨0, 3⟩, none⟩ [c2wA, c2wB]

/-- C2 witness: on a well-formed tree the search reproduces the recorded
second child (path `[1]`, span `[1, 3)`), and a span outside the root yields
absence. -/
theorem relocation_byte_range_search_witness :
    descendantForByteRange c2wRoot 1 3 = some ([1], c2wB) ∧
    descendantForByteRange c2wRoot 5 9 = none := by
  constructor
  · exact relocation_byte_range_search.2 c2wRoot c2wB [1] (by decide)
      (by rfl) (by decide) (by rfl)
  · cases hv : descendantForByteRange c2wRoot 5 9 with
    | none => rfl
    | some v =>
      have hc : covers c2wRoot 5 9 = true :=
        (relocation_byte_range_search.1 c2wRoot 5 9).1.mp (by rw [hv]; rfl)
      exact absurd hc (by decide)

end TreeSitter
